import Mathlib

/-!
Verification of the path-lens core of svelte-keyed (src/src/lib/index.ts).

The development is a shallow embedding of the TypeScript source:

* the path tokenizer getTokens (character-level, on List Char);
* a heap model of JavaScript object graphs (addresses, objects, arrays),
  needed because the write path of the library mutates shared references;
* the traversal getNested, including the Int32Array-based numeric-index
  set that the source builds from the token list;
* the write path of the keyed store (the set and update closures), called
  applyWrite and applyUpdate here;
* the creation-time validation performed by keyed (forbidden-name
  patterns and the identifier check).

Modelling notes, stated once here and referenced from the definitions:

* JavaScript numbers are modelled as exact integers; the claims under
  test only involve integral values below 2 to the 53, where parseInt,
  Number and Int32Array conversions are exact (apart from the Int32Array
  wrap-around, which is modelled faithfully by toInt32).
* Property reads on primitive values (string length, etc.) are modelled
  as undefined; no claim involves them.
* Property writes on primitives and on nullish values throw TypeError,
  as in strict-mode ES modules, which the source is.
* Non-index property writes on arrays do not occur in any claim and are
  mapped to a separate notModeled error so they can never be confused
  with a behaviour the claims mention.
* The token cache of getTokens is dropped: it is checked after the
  format validation and stores exactly the value that would be computed,
  so it is not observable in the result.
* The WeakRef round-trip in getNested (new WeakRef(root).deref() with a
  root fallback) always yields root itself in the absence of garbage
  collection and is modelled as the identity.
-/

namespace SvelteKeyed

/-! ## ASCII character classes, mirroring the regexes of the source -/

/-- ASCII digit, the d class of the source regexes. -/
def isDigitC (c : Char) : Bool := 48 ≤ c.toNat && c.toNat ≤ 57

/-- ASCII letter, the a-zA-Z class of the source regexes. -/
def isAlphaC (c : Char) : Bool :=
  (65 ≤ c.toNat && c.toNat ≤ 90) || (97 ≤ c.toNat && c.toNat ≤ 122)

/-- First character of an identifier in the getNested key regex. -/
def isIdentStartC (c : Char) : Bool := isAlphaC c || c == '_' || c == '$'

/-- Subsequent character of an identifier in the getNested key regex. -/
def isIdentC (c : Char) : Bool := isAlphaC c || isDigitC c || c == '_' || c == '$'

/-- Word character, the w class used by the word-boundary regex in keyed. -/
def isWordC (c : Char) : Bool := isAlphaC c || isDigitC c || c == '_'

/-- ASCII lower-casing, as used by the case-insensitive regex flags. -/
def lowerC (c : Char) : Char :=
  if 65 ≤ c.toNat && c.toNat ≤ 90 then Char.ofNat (c.toNat + 32) else c

/-- A token is a list of characters. -/
abbrev Tok := List Char

/-- Decimal value of a digit string. -/
def digitsToNat (t : Tok) : Nat := t.foldl (fun n c => n * 10 + (c.toNat - 48)) 0

/-! ## Error taxonomy of the library -/

/-- Errors thrown by the library.  Message strings carried by the
TypeScript error classes are elided; the token payload is kept where the
message interpolates it. -/
inductive Err where
  | emptyPath
  | invalidPathFormat
  | invalidPropertyKey (k : Tok)
  | forbiddenProperty (k : Tok)
  | typeError
  | notModeled
deriving DecidableEq

/-! ## Path tokenizer getTokens -/

/-- Scan for two consecutive dots, the test of the regex looking for
repeated dots in getTokens. -/
def hasDotDot : List Char → Bool
  | [] => false
  | [_] => false
  | a :: b :: r => ((a == '.') && (b == '.')) || hasDotDot (b :: r)

/-- Scan for an opening bracket followed by a character that is neither a
digit nor a closing bracket: the numeric-bracket test of getTokens.  Note
the source regex only inspects the single character after the bracket. -/
def hasBadBracket : List Char → Bool
  | [] => false
  | [_] => false
  | a :: b :: r => ((a == '[') && !(isDigitC b) && !(b == ']')) || hasBadBracket (b :: r)

/-- Split a leading run of digits from a character list. -/
def spanDigits : List Char → List Char × List Char
  | [] => ([], [])
  | c :: r =>
    if isDigitC c then
      let p := spanDigits r
      (c :: p.1, p.2)
    else ([], c :: r)

theorem spanDigits_snd_length : ∀ l : List Char, (spanDigits l).2.length ≤ l.length := by
  intro l
  induction l with
  | nil => simp [spanDigits]
  | cons c r ih =>
    by_cases hc : isDigitC c
    · simp only [spanDigits, hc, if_true, List.length_cons]
      omega
    · simp [spanDigits, hc]

/-- Fuelled worker for the bracket rewrite; every recursive call consumes
at least one character, so fuel equal to the input length is enough, see
rbFuel_irrel below. -/
def rbFuel : Nat → List Char → List Char
  | 0, l => l
  | _ + 1, [] => []
  | fuel + 1, c :: rest =>
    if c = '[' ∧ (spanDigits rest).1 ≠ [] ∧ (spanDigits rest).2.head? = some ']' then
      '.' :: (spanDigits rest).1 ++ rbFuel fuel (spanDigits rest).2.tail
    else c :: rbFuel fuel rest

/-- The global regex replace that rewrites every bracketed digit group
into a dot-prefixed digit group, scanning left to right: on a failed
match attempt at an opening bracket the scan advances one character, as
regex scanning does. -/
def replaceBrackets (l : List Char) : List Char := rbFuel l.length l

theorem spanDigits_tail_length (l : List Char) :
    (spanDigits l).2.tail.length ≤ l.length := by
  have ha := spanDigits_snd_length l
  have hb : (spanDigits l).2.tail.length ≤ (spanDigits l).2.length := by
    cases (spanDigits l).2 <;> simp
  omega

theorem rbFuel_irrel : ∀ (f1 f2 : Nat) (l : List Char),
    l.length ≤ f1 → l.length ≤ f2 → rbFuel f1 l = rbFuel f2 l := by
  intro f1
  induction f1 with
  | zero =>
    intro f2 l h1 _
    have hl : l = [] := by cases l <;> simp_all
    subst hl
    cases f2 <;> rfl
  | succ g1 ih =>
    intro f2 l h1 h2
    cases l with
    | nil => cases f2 <;> rfl
    | cons c rest =>
      cases f2 with
      | zero => simp at h2
      | succ g2 =>
        simp only [List.length_cons] at h1 h2
        simp only [rbFuel]
        by_cases hc : c = '[' ∧ (spanDigits rest).1 ≠ [] ∧ (spanDigits rest).2.head? = some ']'
        · rw [if_pos hc, if_pos hc]
          have hlen := spanDigits_tail_length rest
          rw [ih g2 (spanDigits rest).2.tail (by omega) (by omega)]
        · rw [if_neg hc, if_neg hc]
          rw [ih g2 rest (by omega) (by omega)]

/-- The split on dots performed by getTokens; the JavaScript split always
returns at least one piece. -/
def splitDots : List Char → List (List Char)
  | [] => [[]]
  | c :: r =>
    if c = '.' then [] :: splitDots r
    else
      match splitDots r with
      | [] => [[c]]
      | t :: ts => (c :: t) :: ts

/-- Strip one leading dot, the startsWith slice of getTokens. -/
def stripLeadingDot (l : List Char) : List Char :=
  match l with
  | [] => []
  | c :: r => if c = '.' then r else c :: r

/-- The path tokenizer of the library.  Follows the validation order of
the source: empty path, bare dot paths, consecutive dots, bracket
contents, then rewrite, leading-dot strip, split, empty-segment check. -/
def getTokens (key : List Char) : Except Err (List Tok) :=
  if key = [] then .error .emptyPath
  else if key = ['.'] ∨ key = ['.', '.'] then .error .invalidPathFormat
  else if hasDotDot key then .error .invalidPathFormat
  else if hasBadBracket key then .error .invalidPathFormat
  else
    let toks := splitDots (stripLeadingDot (replaceBrackets key))
    if toks.any (fun t => t.isEmpty) then .error .invalidPathFormat
    else .ok toks

example : getTokens ("a.b.c").data = .ok [("a").data, ("b").data, ("c").data] := by rfl

example : getTokens ("users[0].posts[1]").data =
    .ok [("users").data, ("0").data, ("posts").data, ("1").data] := by rfl

example : getTokens ("[3][4][6]").data = .ok [("3").data, ("4").data, ("6").data] := by rfl

example : getTokens ("").data = .error .emptyPath := by rfl

example : getTokens ("a..b").data = .error .invalidPathFormat := by rfl

example : getTokens ("[abc]").data = .error .invalidPathFormat := by rfl

example : getTokens ("a.").data = .error .invalidPathFormat := by rfl

example : getTokens ("a[]").data = .ok [("a[]").data] := by rfl

example : getTokens ("a[1x]").data = .ok [("a[1x]").data] := by rfl

/-! ## Heap model of JavaScript values

Values are primitives or references into a heap of containers.  The heap
is needed because the write path of the library mutates objects that can
be shared between the old and the new root. -/

/-- JavaScript values: undefined, null, booleans, (integral) numbers,
strings, and references to heap containers. -/
inductive Val where
  | vundefined
  | vnull
  | vbool (b : Bool)
  | vnum (n : Int)
  | vstr (s : List Char)
  | ref (a : Nat)
deriving DecidableEq

/-- Heap containers: plain objects (ordered own enumerable string-keyed
fields, as Object.assign copies them) and arrays. -/
inductive Obj where
  | obj (fields : List (Tok × Val))
  | arr (elems : List Val)
deriving DecidableEq

abbrev Heap := List (Nat × Obj)

def heapGet : Heap → Nat → Option Obj
  | [], _ => none
  | (b, o) :: r, a => if b = a then some o else heapGet r a

def heapSet : Heap → Nat → Obj → Heap
  | [], a, o => [(a, o)]
  | (b, w) :: r, a, o => if b = a then (a, o) :: r else (b, w) :: heapSet r a o

def maxAddr : Heap → Nat
  | [] => 0
  | (b, _) :: r => max b (maxAddr r)

def nullish : Val → Bool
  | .vundefined => true
  | .vnull => true
  | _ => false

/-- The values held directly by a container. -/
def objVals : Obj → List Val
  | .obj fs => fs.map Prod.snd
  | .arr es => es

/-- Well-formed heap: every reference stored in a container points to a
strictly smaller address than the container itself.  This is the shape
produced by bottom-up allocation of a value tree and rules out cycles. -/
def WF (h : Heap) : Prop :=
  ∀ a o, heapGet h a = some o → ∀ c, Val.ref c ∈ objVals o → c < a

/-- Boolean well-formedness check, for discharging WF on concrete heaps. -/
def WFb (h : Heap) : Bool :=
  h.all fun p => (objVals p.2).all fun v =>
    match v with
    | .ref c => decide (c < p.1)
    | _ => true

/-! ## Nested traversal getNested -/

/-- The key-format regex of getNested: a pure digit string or an
identifier. -/
def validKey (t : Tok) : Bool :=
  (!t.isEmpty && t.all isDigitC) ||
    (match t with
     | [] => false
     | c :: cs => isIdentStartC c && cs.all isIdentC)

/-- parseInt on a token: the leading digit run, none when there is no
leading digit (NaN).  Sign, whitespace and radix prefixes never occur in
the tokens reachable here and are not modelled. -/
def jsParseInt (t : Tok) : Option Nat :=
  match t.takeWhile isDigitC with
  | [] => none
  | ds => some (digitsToNat ds)

/-- Number conversion on a token: 0 for the empty string, the value of a
pure digit string, NaN (none) otherwise. -/
def jsNumber (t : Tok) : Option Nat :=
  if t.isEmpty then some 0
  else if t.all isDigitC then some (digitsToNat t) else none

/-- Int32 wrap-around applied when a number is stored into an Int32Array. -/
def toInt32 (n : Int) : Int := (n + 2 ^ 31) % 2 ^ 32 - 2 ^ 31

/-- Storing a Number into an Int32Array: NaN becomes 0, other values wrap. -/
def nanToZero : Option Nat → Int
  | none => 0
  | some m => toInt32 m

/-- The numeric-index set built by getNested: all tokens whose parseInt
is not NaN, converted with Number and stored in an Int32Array. -/
def numericSetOf (ts : List Tok) : List Int :=
  ts.filterMap fun k => (jsParseInt k).map fun _ => nanToZero (jsNumber k)

/-- Membership test isNumericKey.has(parseInt(key)); false when parseInt
is NaN. -/
def memNumeric (nset : List Int) (k : Tok) : Bool :=
  match jsParseInt k with
  | none => false
  | some n => decide ((n : Int) ∈ nset)

def lookupField : List (Tok × Val) → Tok → Val
  | [], _ => .vundefined
  | (k2, v) :: r, k => if k2 = k then v else lookupField r k

/-- Canonical array index string: digits with no superfluous leading
zero, whose value is a valid array index.  Property access with such a
string addresses the array element. -/
def noLeadZero : Tok → Bool
  | [] => false
  | ['0'] => true
  | '0' :: _ :: _ => false
  | _ :: _ => true

def isCanonIdx (k : Tok) : Bool :=
  k.all isDigitC && noLeadZero k && decide (digitsToNat k < 2 ^ 32 - 1)

def arrElem (es : List Val) (i : Nat) : Val := es.getD i .vundefined

/-- Plain property read on an array object: canonical index strings read
the element; other properties (length, methods, non-canonical numeric
strings) are absent in this model. -/
def arrKeyLookup (es : List Val) (k : Tok) : Val :=
  if isCanonIdx k then arrElem es (digitsToNat k) else .vundefined

/-- One step of the numeric-key branch: current[parseInt(key)] when the
current value is an array, undefined otherwise. -/
def stepArr (h : Heap) (cur : Val) (i : Nat) : Val :=
  match cur with
  | .ref a =>
    match heapGet h a with
    | some (.arr es) => arrElem es i
    | _ => .vundefined
  | _ => .vundefined

/-- One step of the plain branch: current[key].  Reads on primitives
yield undefined (see the modelling notes). -/
def stepPlain (h : Heap) (cur : Val) (k : Tok) : Val :=
  match cur with
  | .ref a =>
    match heapGet h a with
    | some (.obj fs) => lookupField fs k
    | some (.arr es) => arrKeyLookup es k
    | none => .vundefined
  | _ => .vundefined

/-- One loop iteration of getNested with the numeric set of the call. -/
def stepN (h : Heap) (nset : List Int) (cur : Val) (k : Tok) : Val :=
  if memNumeric nset k then stepArr h cur ((jsParseInt k).getD 0)
  else stepPlain h cur k

/-- The traversal loop of getNested: per-token key validation first, then
the nullish short-circuit, then the lookup step. -/
def getNestedLoop (h : Heap) (nset : List Int) : Val → List Tok → Except Err Val
  | cur, [] => .ok cur
  | cur, k :: ks =>
    if !validKey k then .error (.invalidPropertyKey k)
    else if nullish cur then .ok .vundefined
    else getNestedLoop h nset (stepN h nset cur k) ks

/-- getNested: nullish roots short-circuit before anything else; the
numeric-index set is built from the full token list of the call. -/
def getNested (h : Heap) (root : Val) (ts : List Tok) : Except Err Val :=
  if nullish root then .ok .vundefined
  else getNestedLoop h (numericSetOf ts) root ts

/-! ## Write path: clonedWithPrototype, the set and update closures -/

/-- Shallow clone: a fresh container with the same top-level content
(spread for arrays, Object.assign onto Object.create of the prototype for
objects; prototype identity itself is not part of the model). -/
def clonedWithPrototype : Obj → Obj
  | .obj fs => .obj fs
  | .arr es => .arr es

/-- List update at an index, with the JavaScript semantics of extending
the array with holes (read back as undefined) when the index is past the
end. -/
def listSet (es : List Val) (i : Nat) (v : Val) : List Val :=
  if i < es.length then es.set i v
  else es ++ List.replicate (i - es.length) .vundefined ++ [v]

def setField : List (Tok × Val) → Tok → Val → List (Tok × Val)
  | [], k, v => [(k, v)]
  | (k2, w) :: r, k, v => if k2 = k then (k, v) :: r else (k2, w) :: setField r k v

/-- Property assignment target[k] = v in strict mode: objects set the
field, arrays set the element for canonical index strings, nullish and
primitive targets throw TypeError. -/
def setProp (h : Heap) (target : Val) (k : Tok) (v : Val) : Except Err Heap :=
  match target with
  | .ref a =>
    match heapGet h a with
    | some (.obj fs) => .ok (heapSet h a (.obj (setField fs k v)))
    | some (.arr es) =>
      if isCanonIdx k then .ok (heapSet h a (.arr (listSet es (digitsToNat k) v)))
      else .error .notModeled
    | none => .error .typeError
  | _ => .error .typeError

/-- The set closure of keyed: nullish parents are returned unchanged; a
non-nullish parent is shallow-cloned, the branch tokens are traversed
through the clone with getNested, and the new value is assigned at the
leaf token of whatever that traversal produced. -/
def applyWrite (h : Heap) (parent : Val) (ts : List Tok) (v : Val) :
    Except Err (Heap × Val) :=
  if nullish parent then .ok (h, parent)
  else
    match ts.getLast? with
    | none => .error .notModeled
    | some leafToken =>
      match parent with
      | .ref a =>
        match heapGet h a with
        | some o =>
          let na := maxAddr h + 1
          let h1 := heapSet h na (clonedWithPrototype o)
          match getNested h1 (.ref na) ts.dropLast with
          | .error e => .error e
          | .ok target =>
            match setProp h1 target leafToken v with
            | .error e => .error e
            | .ok h2 => .ok (h2, .ref na)
        | none => .error .typeError
      | _ => .error .typeError

/-- The update closure of keyed: the transformation function is applied
to the value read through the original parent with the full token list,
before the clone is made; the result is then written like set. -/
def applyUpdate (h : Heap) (parent : Val) (ts : List Tok) (fn : Val → Val) :
    Except Err (Heap × Val) :=
  if nullish parent then .ok (h, parent)
  else
    match getNested h parent ts with
    | .error e => .error e
    | .ok cur =>
      let newValue := fn cur
      match ts.getLast? with
      | none => .error .notModeled
      | some leafToken =>
        match parent with
        | .ref a =>
          match heapGet h a with
          | some o =>
            let na := maxAddr h + 1
            let h1 := heapSet h na (clonedWithPrototype o)
            match getNested h1 (.ref na) ts.dropLast with
            | .error e => .error e
            | .ok target =>
              match setProp h1 target leafToken newValue with
              | .error e => .error e
              | .ok h2 => .ok (h2, .ref na)
          | none => .error .typeError
        | _ => .error .typeError

/-! ## Creation-time validation in keyed -/

def startsWithL : List Char → List Char → Bool
  | [], _ => true
  | _ :: _, [] => false
  | p :: ps, c :: cs => (p == c) && startsWithL ps cs

def hasSub (pat : List Char) : List Char → Bool
  | [] => pat.isEmpty
  | c :: cs => startsWithL pat (c :: cs) || hasSub pat cs

/-- Case-insensitive substring test, for the forbidden patterns carrying
the i flag. -/
def containsSubCI (pat s : List Char) : Bool :=
  hasSub (pat.map lowerC) (s.map lowerC)

/-- Case-insensitive anchored match returning the rest of the input. -/
def dropMatchCI : List Char → List Char → Option (List Char)
  | [], s => some s
  | _ :: _, [] => none
  | p :: ps, c :: cs => if lowerC p = lowerC c then dropMatchCI ps cs else none

def wordBoundaryAfter : List Char → Bool
  | [] => true
  | c :: _ => !(isWordC c)

/-- Does one of the SQL keywords match at the start of the input, ending
at a word boundary. -/
def sqlWordAt (s : List Char) : Bool :=
  [("and").data, ("or").data, ("not").data].any fun w =>
    match dropMatchCI w s with
    | some rest => wordBoundaryAfter rest
    | none => false

/-- The word-boundary regex for and, or, not: a match can start wherever
the previous character is not a word character. -/
def hasSqlWord : Bool → List Char → Bool
  | _, [] => false
  | prevWord, c :: cs => (!prevWord && sqlWordAt (c :: cs)) || hasSqlWord (isWordC c) cs

/-- The FORBIDDEN_PATTERNS array of keyed. -/
def forbiddenHit (t : Tok) : Bool :=
  containsSubCI ("__proto__").data t ||
  containsSubCI ("constructor").data t ||
  containsSubCI ("prototype").data t ||
  t.any (fun c => (c == '<') || (c == '>')) ||
  containsSubCI ("$where").data t ||
  hasSqlWord false t

/-- The identifier-shaped check of validateToken in keyed (first
character may be a digit). -/
def keyedIdentOk (t : Tok) : Bool :=
  match t with
  | [] => false
  | c :: cs =>
    (isAlphaC c || isDigitC c || c == '_' || c == '$') &&
      cs.all fun d => isAlphaC d || isDigitC d || d == '_' || d == '$'

def validateToken (t : Tok) : Bool := !forbiddenHit t && keyedIdentOk t

/-- The creation-time computation of keyed: tokenize the path, then
reject the first token failing validateToken.  It takes no root value:
no read, traversal or clone of any container is involved. -/
def keyedTokens (path : List Char) : Except Err (List Tok) :=
  match getTokens path with
  | .error e => .error e
  | .ok toks =>
    match toks.find? (fun t => !validateToken t) with
    | some t => .error (.forbiddenProperty t)
    | none => .ok toks

example : keyedTokens ("__proto__").data = .error (.forbiddenProperty ("__proto__").data) := by rfl

example : keyedTokens ("a.__proto__").data = .error (.forbiddenProperty ("__proto__").data) := by rfl

example : keyedTokens ("user.name").data = .ok [("user").data, ("name").data] := by rfl

example : keyedTokens ("or").data = .error (.forbiddenProperty ("or").data) := by rfl

example : keyedTokens ("myPrototype").data = .error (.forbiddenProperty ("myPrototype").data) := by rfl

example : keyedTokens ("order").data = .ok [("order").data] := by rfl

example : getNested [(0, .obj [(("a").data, .vstr ("x").data)])] (.ref 0) [("a").data] =
    .ok (.vstr ("x").data) := by rfl

example : getNested [(0, .obj [(("3").data, .vstr ("x").data)])] (.ref 0) [("3").data] =
    .ok .vundefined := by rfl

example : getNested [(0, .arr [.vstr ("x").data, .vstr ("y").data])] (.ref 0) [("1").data] =
    .ok (.vstr ("y").data) := by rfl

example :
    getNested [(0, .obj [(("4294967296").data, .vstr ("v").data)])] (.ref 0)
      [("4294967296").data] = .ok (.vstr ("v").data) := by rfl

/-! ## Character-class facts -/

theorem identStart_not_digit {c : Char} (h : isIdentStartC c = true) :
    isDigitC c = false := by
  cases hd : isDigitC c
  · rfl
  · exfalso
    simp only [isIdentStartC, Bool.or_eq_true, beq_iff_eq] at h
    simp only [isDigitC, Bool.and_eq_true, decide_eq_true_eq] at hd
    rcases h with (ha | h1) | h2
    · simp only [isAlphaC, Bool.or_eq_true, Bool.and_eq_true, decide_eq_true_eq] at ha
      omega
    · subst h1; revert hd; decide
    · subst h2; revert hd; decide

theorem identC_ne_dot {c : Char} (h : isIdentC c = true) : c ≠ '.' := by
  rintro rfl; revert h; decide

theorem identC_ne_lbracket {c : Char} (h : isIdentC c = true) : c ≠ '[' := by
  rintro rfl; revert h; decide

theorem digitC_ne_dot {c : Char} (h : isDigitC c = true) : c ≠ '.' := by
  rintro rfl; revert h; decide

theorem digitC_ne_lbracket {c : Char} (h : isDigitC c = true) : c ≠ '[' := by
  rintro rfl; revert h; decide

theorem identStart_isIdentC {c : Char} (h : isIdentStartC c = true) :
    isIdentC c = true := by
  simp only [isIdentStartC, Bool.or_eq_true] at h
  simp only [isIdentC, Bool.or_eq_true]
  rcases h with (h | h) | h
  · exact Or.inl (Or.inl (Or.inl h))
  · exact Or.inl (Or.inr h)
  · exact Or.inr h

/-! ## Canonical per-key traversal

The numeric-index set of getNested is built from the full token list, but
every token consults it only at its own parseInt value; the lemmas below
show the resulting behaviour per key: a pure digit token below the Int32
bound takes the array branch, everything else the plain branch. -/

def canonMem (k : Tok) : Bool :=
  !k.isEmpty && k.all isDigitC && decide (digitsToNat k < 2 ^ 31)

def stepC (h : Heap) (cur : Val) (k : Tok) : Val :=
  if canonMem k then stepArr h cur (digitsToNat k) else stepPlain h cur k

def loopC (h : Heap) : Val → List Tok → Except Err Val
  | cur, [] => .ok cur
  | cur, k :: ks =>
    if !validKey k then .error (.invalidPropertyKey k)
    else if nullish cur then .ok .vundefined
    else loopC h (stepC h cur k) ks

theorem takeWhile_all {p : Char → Bool} :
    ∀ l : List Char, (∀ c ∈ l, p c = true) → l.takeWhile p = l := by
  intro l h
  induction l with
  | nil => rfl
  | cons c r ih =>
    rw [List.takeWhile_cons, if_pos (h c (by simp))]
    rw [ih fun c hc => h c (by simp [hc])]

theorem jsParseInt_digits {k : Tok} (hne : k ≠ []) (hd : k.all isDigitC = true) :
    jsParseInt k = some (digitsToNat k) := by
  unfold jsParseInt
  rw [takeWhile_all k (by simpa [List.all_eq_true] using hd)]
  cases k with
  | nil => exact absurd rfl hne
  | cons c cs => rfl

theorem jsParseInt_ident {c : Char} {cs : List Char} (h : isIdentStartC c = true) :
    jsParseInt (c :: cs) = none := by
  unfold jsParseInt
  rw [List.takeWhile_cons, if_neg (by simp [identStart_not_digit h])]

theorem jsNumber_digits {k : Tok} (hne : k ≠ []) (hd : k.all isDigitC = true) :
    jsNumber k = some (digitsToNat k) := by
  unfold jsNumber
  rw [if_neg (by simpa using hne), if_pos hd]

theorem toInt32_lt (n : Int) : toInt32 n < 2 ^ 31 := by
  unfold toInt32
  have h := Int.emod_lt_of_pos (n + 2 ^ 31) (b := 2 ^ 32) (by norm_num)
  omega

theorem toInt32_of_small {n : Int} (h0 : 0 ≤ n) (h : n < 2 ^ 31) : toInt32 n = n := by
  unfold toInt32
  rw [Int.emod_eq_of_lt (by omega) (by omega)]
  omega

theorem mem_numericSetOf_lt {x : Int} {ts : List Tok} (hx : x ∈ numericSetOf ts) :
    x < 2 ^ 31 := by
  unfold numericSetOf at hx
  rw [List.mem_filterMap] at hx
  obtain ⟨k, _, hk⟩ := hx
  cases hp : jsParseInt k with
  | none => rw [hp] at hk; simp at hk
  | some n =>
    rw [hp] at hk
    have hk2 : nanToZero (jsNumber k) = x := by simpa using hk
    cases hq : jsNumber k with
    | none => rw [hq] at hk2; simp only [nanToZero] at hk2; omega
    | some m =>
      rw [hq] at hk2
      simp only [nanToZero] at hk2
      rw [← hk2]
      exact toInt32_lt m

theorem self_mem_numericSetOf {k : Tok} {ts : List Tok} (hk : k ∈ ts)
    (hne : k ≠ []) (hd : k.all isDigitC = true) (hlt : digitsToNat k < 2 ^ 31) :
    ((digitsToNat k : Int)) ∈ numericSetOf ts := by
  unfold numericSetOf
  rw [List.mem_filterMap]
  refine ⟨k, hk, ?_⟩
  rw [jsParseInt_digits hne hd, jsNumber_digits hne hd]
  show some (toInt32 ((digitsToNat k : Int))) = some ((digitsToNat k : Int))
  rw [toInt32_of_small (by positivity) (by exact_mod_cast hlt)]

theorem memNumeric_parseInt_none {nset : List Int} {k : Tok}
    (h : jsParseInt k = none) : memNumeric nset k = false := by
  unfold memNumeric
  rw [h]

theorem memNumeric_parseInt_some {nset : List Int} {k : Tok} {n : Nat}
    (h : jsParseInt k = some n) :
    memNumeric nset k = decide ((n : Int) ∈ nset) := by
  unfold memNumeric
  rw [h]

/-- Pointwise behaviour of the numeric-membership test for a token of
the list the set was built from. -/
theorem memNumeric_canon {k : Tok} {ts : List Tok} (hk : k ∈ ts)
    (hv : validKey k = true) : memNumeric (numericSetOf ts) k = canonMem k := by
  simp only [validKey, Bool.or_eq_true] at hv
  rcases hv with hd | hi
  · -- digit token
    rw [Bool.and_eq_true] at hd
    obtain ⟨hne, hall⟩ := hd
    have hne' : k ≠ [] := by cases k <;> simp_all
    rw [memNumeric_parseInt_some (jsParseInt_digits hne' hall)]
    unfold canonMem
    by_cases hlt : digitsToNat k < 2 ^ 31
    · rw [decide_eq_true (self_mem_numericSetOf hk hne' hall hlt)]
      simp [hne', hall]
      omega
    · have hnm : ((digitsToNat k : Int)) ∉ numericSetOf ts := by
        intro hmem
        have := mem_numericSetOf_lt hmem
        omega
      rw [decide_eq_false hnm]
      simp [hne', hall]
      omega
  · -- identifier token
    cases k with
    | nil => simp at hi
    | cons c cs =>
      rw [Bool.and_eq_true] at hi
      rw [memNumeric_parseInt_none (jsParseInt_ident hi.1)]
      unfold canonMem
      simp [identStart_not_digit hi.1]

theorem stepN_eq_stepC {h : Heap} {nset : List Int} {cur : Val} {k : Tok}
    (hmem : memNumeric nset k = canonMem k) :
    stepN h nset cur k = stepC h cur k := by
  unfold stepN stepC
  rw [hmem]
  by_cases hc : canonMem k = true
  · rw [if_pos hc, if_pos hc]
    unfold canonMem at hc
    simp only [Bool.and_eq_true, Bool.not_eq_eq_eq_not, Bool.not_true] at hc
    have hne : k ≠ [] := by
      cases k
      · simp at hc
      · simp
    rw [jsParseInt_digits hne hc.1.2]
    rfl
  · rw [if_neg hc, if_neg hc]

theorem loopN_eq_loopC {h : Heap} {nset : List Int} :
    ∀ (ts : List Tok) (cur : Val),
      (∀ k ∈ ts, validKey k = true → memNumeric nset k = canonMem k) →
      getNestedLoop h nset cur ts = loopC h cur ts := by
  intro ts
  induction ts with
  | nil => intro cur _; rfl
  | cons k ks ih =>
    intro cur hmem
    simp only [getNestedLoop, loopC]
    cases hv : validKey k with
    | false => simp [hv]
    | true =>
      simp only [hv, Bool.not_true, Bool.false_eq_true, if_false]
      cases hn : nullish cur with
      | true => simp [hn]
      | false =>
        simp only [hn, Bool.false_eq_true, if_false]
        rw [stepN_eq_stepC (hmem k (by simp) hv)]
        exact ih _ fun k2 hk2 => hmem k2 (by simp [hk2])

/-- getNested coincides with the canonical per-key loop whenever all
tokens pass the key regex. -/
theorem getNested_eq_loopC {h : Heap} {root : Val} {ts : List Tok}
    (hv : ∀ k ∈ ts, validKey k = true) (hroot : nullish root = false) :
    getNested h root ts = loopC h root ts := by
  unfold getNested
  rw [if_neg (by simp [hroot])]
  exact loopN_eq_loopC ts root fun k hk _ => memNumeric_canon hk (hv k hk)

/-! ## Heap lemmas -/

theorem clonedWithPrototype_eq (o : Obj) : clonedWithPrototype o = o := by
  cases o <;> rfl

theorem heapGet_heapSet_self : ∀ (h : Heap) (a : Nat) (o : Obj),
    heapGet (heapSet h a o) a = some o := by
  intro h a o
  induction h with
  | nil => simp [heapSet, heapGet]
  | cons p r ih =>
    obtain ⟨b, w⟩ := p
    by_cases hb : b = a
    · simp [heapSet, heapGet, hb]
    · simp only [heapSet, heapGet, if_neg hb]
      exact ih

theorem heapGet_heapSet_ne : ∀ (h : Heap) {a c : Nat} (_ : c ≠ a) (o : Obj),
    heapGet (heapSet h a o) c = heapGet h c := by
  intro h a c hne o
  induction h with
  | nil =>
    simp only [heapSet, heapGet]
    rw [if_neg (fun he => hne he.symm)]
  | cons p r ih =>
    obtain ⟨b, w⟩ := p
    by_cases hb : b = a
    · subst hb
      simp only [heapSet, if_pos rfl, heapGet]
      rw [if_neg (fun he => hne he.symm), if_neg (fun he => hne he.symm)]
    · simp only [heapSet, if_neg hb, heapGet]
      by_cases hbc : b = c
      · rw [if_pos hbc, if_pos hbc]
      · rw [if_neg hbc, if_neg hbc]
        exact ih

theorem heapGet_le_maxAddr : ∀ {h : Heap} {a : Nat} {o : Obj},
    heapGet h a = some o → a ≤ maxAddr h := by
  intro h
  induction h with
  | nil => intro a o hg; simp [heapGet] at hg
  | cons p r ih =>
    intro a o hg
    obtain ⟨b, w⟩ := p
    simp only [heapGet] at hg
    by_cases hb : b = a
    · simp [maxAddr, hb.symm.le]
    · rw [if_neg hb] at hg
      have := ih hg
      simp only [maxAddr]
      omega

theorem heapGet_mem : ∀ {h : Heap} {a : Nat} {o : Obj},
    heapGet h a = some o → (a, o) ∈ h := by
  intro h
  induction h with
  | nil => intro a o hg; simp [heapGet] at hg
  | cons p r ih =>
    intro a o hg
    obtain ⟨b, w⟩ := p
    simp only [heapGet] at hg
    by_cases hb : b = a
    · rw [if_pos hb] at hg
      subst hb
      cases hg
      simp
    · rw [if_neg hb] at hg
      simp [ih hg]

theorem WFb_WF {h : Heap} (hb : WFb h = true) : WF h := by
  intro a o hg c hc
  unfold WFb at hb
  rw [List.all_eq_true] at hb
  have hm := hb (a, o) (heapGet_mem hg)
  rw [List.all_eq_true] at hm
  have := hm (Val.ref c) hc
  simpa using this

theorem WF_extend {h : Heap} {na : Nat} {o2 : Obj} (hWF : WF h)
    (ho : ∀ c, Val.ref c ∈ objVals o2 → c < na) (hna : maxAddr h < na) :
    WF (heapSet h na o2) := by
  intro a o hg c hc
  by_cases ha : a = na
  · subst ha
    rw [heapGet_heapSet_self] at hg
    cases hg
    exact ho c hc
  · rw [heapGet_heapSet_ne h (fun he => ha he) o2] at hg
    exact hWF a o hg c hc

/-! ## Step and loop lemmas for the canonical traversal -/

def isRefB : Val → Bool
  | .ref _ => true
  | _ => false

theorem stepArr_nonref {h : Heap} {cur : Val} {i : Nat} (hnr : isRefB cur = false) :
    stepArr h cur i = .vundefined := by
  cases cur <;> simp_all [stepArr, isRefB]

theorem stepPlain_nonref {h : Heap} {cur : Val} {k : Tok} (hnr : isRefB cur = false) :
    stepPlain h cur k = .vundefined := by
  cases cur <;> simp_all [stepPlain, isRefB]

theorem stepC_nonref {h : Heap} {cur : Val} {k : Tok} (hnr : isRefB cur = false) :
    stepC h cur k = .vundefined := by
  unfold stepC
  by_cases hc : canonMem k = true
  · rw [if_pos hc]; exact stepArr_nonref hnr
  · rw [if_neg hc]; exact stepPlain_nonref hnr

theorem stepArr_ref (h : Heap) (a : Nat) (i : Nat) :
    stepArr h (.ref a) i =
      match heapGet h a with
      | some (.arr es) => arrElem es i
      | _ => .vundefined := rfl

theorem stepPlain_ref (h : Heap) (a : Nat) (k : Tok) :
    stepPlain h (.ref a) k =
      match heapGet h a with
      | some (.obj fs) => lookupField fs k
      | some (.arr es) => arrKeyLookup es k
      | none => .vundefined := rfl

theorem stepC_congr {h1 h2 : Heap} {a : Nat} (k : Tok)
    (hgg : heapGet h1 a = heapGet h2 a) :
    stepC h1 (.ref a) k = stepC h2 (.ref a) k := by
  unfold stepC
  rw [stepArr_ref, stepArr_ref, stepPlain_ref, stepPlain_ref, hgg]

theorem nullish_ref (a : Nat) : nullish (Val.ref a) = false := rfl

theorem loopC_cons_invalid (h : Heap) {k : Tok} (hv : validKey k = false)
    (v : Val) (ks : List Tok) :
    loopC h v (k :: ks) = .error (.invalidPropertyKey k) := by
  simp [loopC, hv]

theorem loopC_cons_nullish (h : Heap) {k : Tok} {v : Val} (hv : validKey k = true)
    (hn : nullish v = true) (ks : List Tok) :
    loopC h v (k :: ks) = .ok .vundefined := by
  simp [loopC, hv, hn]

theorem loopC_cons_step (h : Heap) {k : Tok} {v : Val} (hv : validKey k = true)
    (hn : nullish v = false) (ks : List Tok) :
    loopC h v (k :: ks) = loopC h (stepC h v k) ks := by
  simp [loopC, hv, hn]

theorem arrElem_mem_or : ∀ (es : List Val) (i : Nat),
    arrElem es i = .vundefined ∨ arrElem es i ∈ es := by
  intro es
  induction es with
  | nil => intro i; left; cases i <;> rfl
  | cons e r ih =>
    intro i
    cases i with
    | zero => right; simp [arrElem]
    | succ j =>
      rcases ih j with hq | hq
      · left; simpa [arrElem] using hq
      · right
        have he : arrElem (e :: r) (j + 1) = arrElem r j := by simp [arrElem]
        rw [he]
        exact List.mem_cons_of_mem e hq

theorem lookupField_mem_or : ∀ (fs : List (Tok × Val)) (k : Tok),
    lookupField fs k = .vundefined ∨ lookupField fs k ∈ fs.map Prod.snd := by
  intro fs k
  induction fs with
  | nil => left; rfl
  | cons p r ih =>
    obtain ⟨k2, v⟩ := p
    by_cases hk : k2 = k
    · right
      have he : lookupField ((k2, v) :: r) k = v := by simp [lookupField, hk]
      rw [he, List.map_cons]
      exact List.mem_cons_self _ _
    · have he : lookupField ((k2, v) :: r) k = lookupField r k := by
        simp [lookupField, hk]
      rw [he]
      rcases ih with hq | hq
      · left; exact hq
      · right
        simp only [List.map_cons]
        exact List.mem_cons_of_mem v hq

theorem stepC_ref_lt {h : Heap} {a c : Nat} {k : Tok} (hWF : WF h)
    (hs : stepC h (.ref a) k = .ref c) : c < a := by
  have harr : ∀ es i, heapGet h a = some (.arr es) →
      arrElem es i = Val.ref c → c < a := by
    intro es i hg he
    rcases arrElem_mem_or es i with hq | hq
    · rw [he] at hq; cases hq
    · rw [he] at hq
      exact hWF a (.arr es) hg c hq
  unfold stepC at hs
  by_cases hc : canonMem k = true
  · rw [if_pos hc, stepArr_ref] at hs
    cases hg : heapGet h a with
    | none => rw [hg] at hs; exact Val.noConfusion hs
    | some o =>
      rw [hg] at hs
      cases o with
      | obj fs => exact Val.noConfusion hs
      | arr es => exact harr es _ hg hs
  · rw [if_neg hc, stepPlain_ref] at hs
    cases hg : heapGet h a with
    | none => rw [hg] at hs; exact Val.noConfusion hs
    | some o =>
      rw [hg] at hs
      cases o with
      | obj fs =>
        have hs2 : lookupField fs k = Val.ref c := hs
        rcases lookupField_mem_or fs k with hq | hq
        · rw [hs2] at hq; cases hq
        · rw [hs2] at hq
          exact hWF a (.obj fs) hg c hq
      | arr es =>
        have hs2 : arrKeyLookup es k = Val.ref c := hs
        unfold arrKeyLookup at hs2
        by_cases hi : isCanonIdx k = true
        · rw [if_pos hi] at hs2
          exact harr es _ hg hs2
        · rw [if_neg hi] at hs2
          cases hs2

theorem loopC_nonref_ne_ref {h : Heap} : ∀ (ts : List Tok) {v : Val},
    isRefB v = false → ∀ b, loopC h v ts ≠ .ok (.ref b) := by
  intro ts
  induction ts with
  | nil =>
    intro v hnr b hq
    simp only [loopC] at hq
    cases hq
    simp [isRefB] at hnr
  | cons k ks ih =>
    intro v hnr b hq
    cases hv : validKey k with
    | false => rw [loopC_cons_invalid h hv] at hq; cases hq
    | true =>
      cases hn : nullish v with
      | true => rw [loopC_cons_nullish h hv hn] at hq; cases hq
      | false =>
        rw [loopC_cons_step h hv hn] at hq
        rw [stepC_nonref hnr] at hq
        exact ih (v := .vundefined) rfl b hq

theorem loopC_nonref_heap_irrel {h1 h2 : Heap} : ∀ (ts : List Tok) {v : Val},
    isRefB v = false → loopC h1 v ts = loopC h2 v ts := by
  intro ts
  induction ts with
  | nil => intro v _; rfl
  | cons k ks ih =>
    intro v hnr
    cases hv : validKey k with
    | false => rw [loopC_cons_invalid h1 hv, loopC_cons_invalid h2 hv]
    | true =>
      cases hn : nullish v with
      | true => rw [loopC_cons_nullish h1 hv hn, loopC_cons_nullish h2 hv hn]
      | false =>
        rw [loopC_cons_step h1 hv hn, loopC_cons_step h2 hv hn]
        rw [stepC_nonref hnr, stepC_nonref hnr]
        exact ih rfl

theorem loopC_reach_le {h : Heap} (hWF : WF h) : ∀ (ts : List Tok) {a b : Nat},
    loopC h (.ref a) ts = .ok (.ref b) → b ≤ a := by
  intro ts
  induction ts with
  | nil =>
    intro a b hq
    simp only [loopC] at hq
    cases hq
    exact le_refl _
  | cons k ks ih =>
    intro a b hq
    cases hv : validKey k with
    | false => rw [loopC_cons_invalid h hv] at hq; cases hq
    | true =>
      rw [loopC_cons_step h hv (nullish_ref a)] at hq
      cases hrf : isRefB (stepC h (.ref a) k) with
      | false => exact absurd hq (loopC_nonref_ne_ref ks hrf b)
      | true =>
        obtain ⟨c, hc⟩ : ∃ c, stepC h (.ref a) k = .ref c := by
          cases hv2 : stepC h (.ref a) k <;> simp_all [isRefB]
        rw [hc] at hq
        have h1 := stepC_ref_lt hWF hc
        have h2 := ih hq
        omega

theorem loopC_mutate {h : Heap} {b : Nat} {o2 : Obj} (hWF : WF h) :
    ∀ (ts : List Tok) {a : Nat},
      loopC h (.ref a) ts = .ok (.ref b) →
      loopC (heapSet h b o2) (.ref a) ts = .ok (.ref b) := by
  intro ts
  induction ts with
  | nil =>
    intro a hq
    simp only [loopC] at hq
    cases hq
    rfl
  | cons k ks ih =>
    intro a hq
    cases hv : validKey k with
    | false => rw [loopC_cons_invalid h hv] at hq; cases hq
    | true =>
      rw [loopC_cons_step h hv (nullish_ref a)] at hq
      rw [loopC_cons_step (heapSet h b o2) hv (nullish_ref a)]
      cases hrf : isRefB (stepC h (.ref a) k) with
      | false => exact absurd hq (loopC_nonref_ne_ref ks hrf b)
      | true =>
        obtain ⟨c, hc⟩ : ∃ c, stepC h (.ref a) k = .ref c := by
          cases hv2 : stepC h (.ref a) k <;> simp_all [isRefB]
        rw [hc] at hq
        have hca := stepC_ref_lt hWF hc
        have hbc := loopC_reach_le hWF ks hq
        have hab : a ≠ b := by omega
        rw [stepC_congr k (heapGet_heapSet_ne h hab o2), hc]
        exact ih hq

theorem loopC_extend {h : Heap} {na : Nat} {o2 : Obj} (hWF : WF h)
    (hna : maxAddr h < na) : ∀ (ts : List Tok) {a : Nat}, a ≤ maxAddr h →
    loopC (heapSet h na o2) (.ref a) ts = loopC h (.ref a) ts := by
  intro ts
  induction ts with
  | nil => intro a _; rfl
  | cons k ks ih =>
    intro a ha
    cases hv : validKey k with
    | false => rw [loopC_cons_invalid _ hv, loopC_cons_invalid _ hv]
    | true =>
      rw [loopC_cons_step _ hv (nullish_ref a), loopC_cons_step _ hv (nullish_ref a)]
      have hne : a ≠ na := by omega
      rw [stepC_congr k (heapGet_heapSet_ne h hne o2)]
      cases hrf : isRefB (stepC h (.ref a) k) with
      | false => exact loopC_nonref_heap_irrel ks hrf
      | true =>
        obtain ⟨c, hc⟩ : ∃ c, stepC h (.ref a) k = .ref c := by
          cases hv2 : stepC h (.ref a) k <;> simp_all [isRefB]
        rw [hc]
        have hca := stepC_ref_lt hWF hc
        exact ih (by omega)

theorem stepC_addr_congr {h : Heap} {na a : Nat} (k : Tok)
    (hgg : heapGet h na = heapGet h a) :
    stepC h (.ref na) k = stepC h (.ref a) k := by
  unfold stepC
  rw [stepArr_ref, stepArr_ref, stepPlain_ref, stepPlain_ref, hgg]

theorem loopC_clone_head {h : Heap} {na a : Nat}
    (hgg : heapGet h na = heapGet h a) :
    ∀ {ts : List Tok}, ts ≠ [] → loopC h (.ref na) ts = loopC h (.ref a) ts := by
  intro ts hts
  cases ts with
  | nil => exact absurd rfl hts
  | cons k ks =>
    cases hv : validKey k with
    | false => rw [loopC_cons_invalid _ hv, loopC_cons_invalid _ hv]
    | true =>
      rw [loopC_cons_step _ hv (nullish_ref na), loopC_cons_step _ hv (nullish_ref a)]
      rw [stepC_addr_congr k hgg]

theorem loopC_vundefined_all_valid {h : Heap} : ∀ {ts : List Tok},
    (∀ k ∈ ts, validKey k = true) → loopC h .vundefined ts = .ok .vundefined := by
  intro ts hv
  cases ts with
  | nil => rfl
  | cons k ks =>
    exact loopC_cons_nullish h (hv k (by simp)) (show nullish Val.vundefined = true from rfl) ks

theorem loopC_append {h : Heap} : ∀ (xs ys : List Tok) (v : Val),
    (∀ k ∈ ys, validKey k = true) →
    loopC h v (xs ++ ys) =
      match loopC h v xs with
      | .error e => .error e
      | .ok w => loopC h w ys := by
  intro xs
  induction xs with
  | nil => intro ys v _; rfl
  | cons k ks ih =>
    intro ys v hys
    rw [List.cons_append]
    cases hv : validKey k with
    | false => rw [loopC_cons_invalid h hv, loopC_cons_invalid h hv]
    | true =>
      cases hn : nullish v with
      | true =>
        rw [loopC_cons_nullish h hv hn, loopC_cons_nullish h hv hn]
        exact (loopC_vundefined_all_valid hys).symm
      | false =>
        rw [loopC_cons_step h hv hn, loopC_cons_step h hv hn]
        exact ih ys _ hys

/-! ## Token-shape classes and the leaf-compatibility predicate -/

/-- Identifier-shaped token, the second alternative of the getNested key
regex. -/
def isIdentTok (t : Tok) : Bool :=
  match t with
  | [] => false
  | c :: cs => isIdentStartC c && cs.all isIdentC

/-- Pure digit token. -/
def isDigitsTok (t : Tok) : Bool := !t.isEmpty && t.all isDigitC

theorem validKey_eq (t : Tok) : validKey t = (isDigitsTok t || isIdentTok t) := rfl

theorem validKey_of_ident {t : Tok} (h : isIdentTok t = true) : validKey t = true := by
  rw [validKey_eq, h, Bool.or_true]

theorem noLeadZero_ne_nil {t : Tok} (h : noLeadZero t = true) : t ≠ [] := by
  cases t
  · simp [noLeadZero] at h
  · simp

theorem isCanonIdx_digits {t : Tok} (h : isCanonIdx t = true) :
    t ≠ [] ∧ t.all isDigitC = true := by
  unfold isCanonIdx at h
  simp only [Bool.and_eq_true] at h
  exact ⟨noLeadZero_ne_nil h.1.2, h.1.1⟩

theorem validKey_of_canonIdx {t : Tok} (h : isCanonIdx t = true) : validKey t = true := by
  obtain ⟨hne, hall⟩ := isCanonIdx_digits h
  rw [validKey_eq]
  unfold isDigitsTok
  have he : t.isEmpty = false := by cases t <;> simp_all
  simp [he, hall]

theorem canonMem_of_ident {t : Tok} (h : isIdentTok t = true) : canonMem t = false := by
  cases t with
  | nil => simp [isIdentTok] at h
  | cons c cs =>
    simp only [isIdentTok, Bool.and_eq_true] at h
    unfold canonMem
    have hc := identStart_not_digit h.1
    simp [hc]

theorem canonMem_of_canonIdx {t : Tok} (h : isCanonIdx t = true)
    (hlt : digitsToNat t < 2 ^ 31) : canonMem t = true := by
  obtain ⟨hne, hall⟩ := isCanonIdx_digits h
  unfold canonMem
  have he : t.isEmpty = false := by cases t <;> simp_all
  simp [he, hall]
  omega

/-- The write-compatible leaf shapes: an identifier over a plain object,
or a canonical array index below the Int32 bound over an array. -/
def leafCompat (h : Heap) (b : Nat) (leaf : Tok) : Prop :=
  (∃ fs, heapGet h b = some (.obj fs) ∧ isIdentTok leaf = true) ∨
  (∃ es, heapGet h b = some (.arr es) ∧ isCanonIdx leaf = true ∧
    digitsToNat leaf < 2 ^ 31)

/-! ## Field update and array update lemmas -/

theorem lookupField_setField : ∀ (fs : List (Tok × Val)) (k : Tok) (v : Val),
    lookupField (setField fs k v) k = v := by
  intro fs k v
  induction fs with
  | nil => simp [setField, lookupField]
  | cons p r ih =>
    obtain ⟨k2, w⟩ := p
    by_cases hk : k2 = k
    · simp [setField, hk, lookupField]
    · simp only [setField, if_neg hk, lookupField]
      exact ih

theorem arrElem_set : ∀ (es : List Val) (i : Nat) (v : Val), i < es.length →
    arrElem (es.set i v) i = v := by
  intro es
  induction es with
  | nil => intro i v hi; simp at hi
  | cons e r ih =>
    intro i v hi
    cases i with
    | zero => simp [arrElem]
    | succ j =>
      have he : arrElem ((e :: r).set (j + 1) v) (j + 1) = arrElem (r.set j v) j := by
        simp [arrElem]
      rw [he]
      exact ih j v (by simpa using hi)

theorem arrElem_append_right : ∀ (xs ys : List Val) (j : Nat),
    arrElem (xs ++ ys) (xs.length + j) = arrElem ys j := by
  intro xs
  induction xs with
  | nil => intro ys j; simp [arrElem]
  | cons e r ih =>
    intro ys j
    have hidx : (e :: r).length + j = (r.length + j) + 1 := by simp; omega
    rw [hidx]
    have he : arrElem (e :: (r ++ ys)) ((r.length + j) + 1) = arrElem (r ++ ys) (r.length + j) := by
      simp [arrElem]
    rw [List.cons_append, he]
    exact ih ys j

theorem arrElem_pad_last : ∀ (d : Nat) (v : Val),
    arrElem (List.replicate d Val.vundefined ++ [v]) d = v := by
  intro d
  induction d with
  | zero => intro v; rfl
  | succ e ih =>
    intro v
    rw [List.replicate_succ, List.cons_append]
    have he : arrElem (Val.vundefined :: (List.replicate e Val.vundefined ++ [v])) (e + 1) =
        arrElem (List.replicate e Val.vundefined ++ [v]) e := by
      simp [arrElem]
    rw [he]
    exact ih v

theorem arrElem_listSet (es : List Val) (i : Nat) (v : Val) :
    arrElem (listSet es i v) i = v := by
  unfold listSet
  by_cases hi : i < es.length
  · rw [if_pos hi]
    exact arrElem_set es i v hi
  · rw [if_neg hi]
    obtain ⟨d, rfl⟩ : ∃ d, i = es.length + d := ⟨i - es.length, by omega⟩
    have h3 : es.length + d - es.length = d := by omega
    rw [h3, List.append_assoc, arrElem_append_right]
    exact arrElem_pad_last d v

/-! ## Equation lemmas for setProp and applyWrite -/

theorem setProp_ref (h : Heap) (b : Nat) (k : Tok) (v : Val) :
    setProp h (.ref b) k v =
      match heapGet h b with
      | some (.obj fs) => .ok (heapSet h b (.obj (setField fs k v)))
      | some (.arr es) =>
        if isCanonIdx k then .ok (heapSet h b (.arr (listSet es (digitsToNat k) v)))
        else .error .notModeled
      | none => .error .typeError := rfl

theorem setProp_obj {h : Heap} {b : Nat} {fs : List (Tok × Val)} (k : Tok) (v : Val)
    (hg : heapGet h b = some (.obj fs)) :
    setProp h (.ref b) k v = .ok (heapSet h b (.obj (setField fs k v))) := by
  rw [setProp_ref, hg]

theorem setProp_arr {h : Heap} {b : Nat} {es : List Val} (k : Tok) (v : Val)
    (hg : heapGet h b = some (.arr es)) (hci : isCanonIdx k = true) :
    setProp h (.ref b) k v = .ok (heapSet h b (.arr (listSet es (digitsToNat k) v))) := by
  rw [setProp_ref, hg]
  show (if isCanonIdx k = true
      then (Except.ok (heapSet h b (.arr (listSet es (digitsToNat k) v))) : Except Err Heap)
      else .error .notModeled) = _
  rw [if_pos hci]

theorem setProp_nullish {h : Heap} {target : Val} (k : Tok) (v : Val)
    (hn : nullish target = true) : setProp h target k v = .error .typeError := by
  cases target <;> first | rfl | simp [nullish] at hn

theorem getLast?_append_singleton : ∀ (xs : List Tok) (y : Tok),
    (xs ++ [y]).getLast? = some y := by
  intro xs y
  induction xs with
  | nil => rfl
  | cons e r ih =>
    rw [List.cons_append]
    rw [List.getLast?_cons, ih]
    cases r <;> simp_all

theorem dropLast_append_singleton : ∀ (xs : List Tok) (y : Tok),
    (xs ++ [y]).dropLast = xs := by
  intro xs y
  exact List.dropLast_concat

/-- Raw unfolding of applyWrite at a reference parent, with the heap
lookup exposed as the outer scrutinee. -/
theorem applyWrite_ref_eq (h : Heap) (a : Nat) (ts : List Tok) (v : Val) :
    applyWrite h (.ref a) ts v =
      match ts.getLast? with
      | none => .error .notModeled
      | some leafToken =>
        match heapGet h a with
        | some o =>
          match getNested (heapSet h (maxAddr h + 1) (clonedWithPrototype o))
              (.ref (maxAddr h + 1)) ts.dropLast with
          | .error e => .error e
          | .ok target =>
            match setProp (heapSet h (maxAddr h + 1) (clonedWithPrototype o))
                target leafToken v with
            | .error e => .error e
            | .ok h2 => .ok (h2, .ref (maxAddr h + 1))
        | none => .error .typeError := rfl

/-- Unfolding of applyWrite for a reference parent whose address is live,
once the leaf token is split off. -/
theorem applyWrite_ref {h : Heap} {a : Nat} {o : Obj} {ts : List Tok} {leaf : Tok}
    (v : Val) (hg : heapGet h a = some o) (hlast : ts.getLast? = some leaf) :
    applyWrite h (.ref a) ts v =
      match getNested (heapSet h (maxAddr h + 1) o) (.ref (maxAddr h + 1)) ts.dropLast with
      | .error e => .error e
      | .ok target =>
        match setProp (heapSet h (maxAddr h + 1) o) target leaf v with
        | .error e => .error e
        | .ok h2 => .ok (h2, .ref (maxAddr h + 1)) := by
  rw [applyWrite_ref_eq, hlast, hg]
  simp only [clonedWithPrototype_eq]

/-! ## Main specification of the write path -/

/-- What the set closure does when the branch is non-empty and the leaf
is write-compatible: a single fresh clone of the root container is made,
the branch is resolved through the shared children to the same address b
the original resolves to, and the container at b is mutated in place.
Consequently the leaf value reads back through the new root, and also
through the untouched original root. -/
theorem applyWrite_core {h : Heap} {a b : Nat} {o : Obj} {branch : List Tok}
    {leaf : Tok} (x : Val)
    (hWF : WF h) (hroot : heapGet h a = some o) (hbr : branch ≠ [])
    (hvb : ∀ k ∈ branch, validKey k = true)
    (hres : loopC h (.ref a) branch = .ok (.ref b))
    (hleaf : leafCompat h b leaf) :
    ∃ h2, applyWrite h (.ref a) (branch ++ [leaf]) x = .ok (h2, .ref (maxAddr h + 1))
      ∧ heapGet h2 (maxAddr h + 1) = some o
      ∧ heapGet h2 a = some o
      ∧ loopC h2 (.ref (maxAddr h + 1)) (branch ++ [leaf]) = .ok x
      ∧ loopC h2 (.ref a) (branch ++ [leaf]) = .ok x := by
  have hvl : validKey leaf = true := by
    rcases hleaf with ⟨fs, _, hid⟩ | ⟨es, _, hci, _⟩
    · exact validKey_of_ident hid
    · exact validKey_of_canonIdx hci
  have hvleaf1 : ∀ k ∈ [leaf], validKey k = true := by
    intro k hk
    rw [List.mem_singleton] at hk
    rw [hk]
    exact hvl
  have hle_a : a ≤ maxAddr h := heapGet_le_maxAddr hroot
  have hlt_na : maxAddr h < maxAddr h + 1 := by omega
  have hane : a ≠ maxAddr h + 1 := by omega
  have hwf1 : WF (heapSet h (maxAddr h + 1) o) := by
    refine WF_extend hWF (fun c hc => ?_) hlt_na
    have := hWF a o hroot c hc
    omega
  have hget_na : heapGet (heapSet h (maxAddr h + 1) o) (maxAddr h + 1) = some o :=
    heapGet_heapSet_self h (maxAddr h + 1) o
  have hget_a : heapGet (heapSet h (maxAddr h + 1) o) a = some o := by
    rw [heapGet_heapSet_ne h hane o]
    exact hroot
  have hE : loopC (heapSet h (maxAddr h + 1) o) (.ref a) branch = .ok (.ref b) := by
    rw [loopC_extend hWF hlt_na branch hle_a]
    exact hres
  have hF : loopC (heapSet h (maxAddr h + 1) o) (.ref (maxAddr h + 1)) branch =
      .ok (.ref b) := by
    rw [loopC_clone_head (hget_na.trans hget_a.symm) hbr]
    exact hE
  have hgn : getNested (heapSet h (maxAddr h + 1) o) (.ref (maxAddr h + 1))
      (branch ++ [leaf]).dropLast = .ok (.ref b) := by
    rw [dropLast_append_singleton]
    rw [getNested_eq_loopC hvb (nullish_ref _)]
    exact hF
  have hb_le : b ≤ maxAddr h := by
    rcases hleaf with ⟨fs, hb, _⟩ | ⟨es, hb, _⟩ <;> exact heapGet_le_maxAddr hb
  have hbne : b ≠ maxAddr h + 1 := by omega
  have hab : b < a := by
    cases branch with
    | nil => exact absurd rfl hbr
    | cons k ks =>
      cases hv2 : validKey k with
      | false => rw [loopC_cons_invalid h hv2] at hres; cases hres
      | true =>
        rw [loopC_cons_step h hv2 (nullish_ref a)] at hres
        cases hrf : isRefB (stepC h (.ref a) k) with
        | false => exact absurd hres (loopC_nonref_ne_ref ks hrf b)
        | true =>
          obtain ⟨c, hc⟩ : ∃ c, stepC h (.ref a) k = .ref c := by
            cases hv3 : stepC h (.ref a) k <;> simp_all [isRefB]
          rw [hc] at hres
          have h1 := stepC_ref_lt hWF hc
          have h2 := loopC_reach_le hWF ks hres
          omega
  rcases hleaf with ⟨fs, hb, hid⟩ | ⟨es, hb, hci, hlt31⟩
  · -- object leaf
    refine ⟨heapSet (heapSet h (maxAddr h + 1) o) b (.obj (setField fs leaf x)),
      ?_, ?_, ?_, ?_, ?_⟩
    · rw [applyWrite_ref x hroot (getLast?_append_singleton branch leaf)]
      simp only [hgn]
      rw [setProp_obj leaf x (by rw [heapGet_heapSet_ne h hbne]; exact hb)]
    · rw [heapGet_heapSet_ne _ (fun he => hbne he.symm)]
      exact hget_na
    · rw [heapGet_heapSet_ne _ (fun he => (by omega : a ≠ b) he)]
      exact hget_a
    · rw [loopC_append branch [leaf] _ hvleaf1]
      simp only [loopC_mutate hwf1 branch hF]
      rw [loopC_cons_step _ hvl (nullish_ref b)]
      have hst : stepC (heapSet (heapSet h (maxAddr h + 1) o) b
          (.obj (setField fs leaf x))) (.ref b) leaf = x := by
        unfold stepC
        rw [if_neg (by simp [canonMem_of_ident hid]), stepPlain_ref,
          heapGet_heapSet_self]
        exact lookupField_setField fs leaf x
      rw [hst]
      rfl
    · rw [loopC_append branch [leaf] _ hvleaf1]
      simp only [loopC_mutate hwf1 branch hE]
      rw [loopC_cons_step _ hvl (nullish_ref b)]
      have hst : stepC (heapSet (heapSet h (maxAddr h + 1) o) b
          (.obj (setField fs leaf x))) (.ref b) leaf = x := by
        unfold stepC
        rw [if_neg (by simp [canonMem_of_ident hid]), stepPlain_ref,
          heapGet_heapSet_self]
        exact lookupField_setField fs leaf x
      rw [hst]
      rfl
  · -- array leaf
    refine ⟨heapSet (heapSet h (maxAddr h + 1) o) b
      (.arr (listSet es (digitsToNat leaf) x)), ?_, ?_, ?_, ?_, ?_⟩
    · rw [applyWrite_ref x hroot (getLast?_append_singleton branch leaf)]
      simp only [hgn]
      rw [setProp_arr leaf x (by rw [heapGet_heapSet_ne h hbne]; exact hb) hci]
    · rw [heapGet_heapSet_ne _ (fun he => hbne he.symm)]
      exact hget_na
    · rw [heapGet_heapSet_ne _ (fun he => (by omega : a ≠ b) he)]
      exact hget_a
    · rw [loopC_append branch [leaf] _ hvleaf1]
      simp only [loopC_mutate hwf1 branch hF]
      rw [loopC_cons_step _ hvl (nullish_ref b)]
      have hst : stepC (heapSet (heapSet h (maxAddr h + 1) o) b
          (.arr (listSet es (digitsToNat leaf) x))) (.ref b) leaf = x := by
        unfold stepC
        rw [if_pos (canonMem_of_canonIdx hci hlt31), stepArr_ref,
          heapGet_heapSet_self]
        exact arrElem_listSet es (digitsToNat leaf) x
      rw [hst]
      rfl
    · rw [loopC_append branch [leaf] _ hvleaf1]
      simp only [loopC_mutate hwf1 branch hE]
      rw [loopC_cons_step _ hvl (nullish_ref b)]
      have hst : stepC (heapSet (heapSet h (maxAddr h + 1) o) b
          (.arr (listSet es (digitsToNat leaf) x))) (.ref b) leaf = x := by
        unfold stepC
        rw [if_pos (canonMem_of_canonIdx hci hlt31), stepArr_ref,
          heapGet_heapSet_self]
        exact arrElem_listSet es (digitsToNat leaf) x
      rw [hst]
      rfl

/-! ## Broken-spine writes and the update equation -/

/-- When the branch resolves to a nullish value, the assignment target of
the set closure is nullish and the strict-mode assignment throws. -/
theorem applyWrite_broken_spine {h : Heap} {a : Nat} {o : Obj} {branch : List Tok}
    {leaf : Tok} {v : Val} (x : Val)
    (hWF : WF h) (hroot : heapGet h a = some o)
    (hvb : ∀ k ∈ branch, validKey k = true) (_hvl : validKey leaf = true)
    (hres : loopC h (.ref a) branch = .ok v) (hn : nullish v = true) :
    applyWrite h (.ref a) (branch ++ [leaf]) x = .error .typeError := by
  have hbr : branch ≠ [] := by
    intro hq
    subst hq
    simp only [loopC] at hres
    cases hres
    simp [nullish] at hn
  have hle_a : a ≤ maxAddr h := heapGet_le_maxAddr hroot
  have hlt_na : maxAddr h < maxAddr h + 1 := by omega
  have hane : a ≠ maxAddr h + 1 := by omega
  have hget_na : heapGet (heapSet h (maxAddr h + 1) o) (maxAddr h + 1) = some o :=
    heapGet_heapSet_self h (maxAddr h + 1) o
  have hget_a : heapGet (heapSet h (maxAddr h + 1) o) a = some o := by
    rw [heapGet_heapSet_ne h hane o]
    exact hroot
  have hgn : getNested (heapSet h (maxAddr h + 1) o) (.ref (maxAddr h + 1))
      (branch ++ [leaf]).dropLast = .ok v := by
    rw [dropLast_append_singleton]
    rw [getNested_eq_loopC hvb (nullish_ref _)]
    rw [loopC_clone_head (hget_na.trans hget_a.symm) hbr]
    rw [loopC_extend hWF hlt_na branch hle_a]
    exact hres
  rw [applyWrite_ref x hroot (getLast?_append_singleton branch leaf)]
  simp only [hgn]
  rw [setProp_nullish leaf x hn]

/-- The update closure agrees with reading the current value through the
original parent with the full token list and then running the set closure
with the transformed value: the transformation function observes the
pre-write state. -/
theorem applyUpdate_eq (h : Heap) (p : Val) (ts : List Tok) (fn : Val → Val) :
    applyUpdate h p ts fn =
      match getNested h p ts with
      | .error e => .error e
      | .ok cur => applyWrite h p ts (fn cur) := by
  by_cases hn : nullish p = true
  · have hg : getNested h p ts = .ok .vundefined := by
      unfold getNested
      rw [if_pos hn]
    rw [hg]
    show applyUpdate h p ts fn = applyWrite h p ts (fn .vundefined)
    unfold applyUpdate applyWrite
    rw [if_pos hn, if_pos hn]
  · cases hq : getNested h p ts with
    | error e =>
      unfold applyUpdate
      rw [if_neg hn, hq]
    | ok cur =>
      unfold applyUpdate applyWrite
      rw [if_neg hn]
      simp only [hq]
      rw [if_neg hn]

/-- Broken-spine behaviour of the update closure. -/
theorem applyUpdate_broken_spine {h : Heap} {a : Nat} {o : Obj} {branch : List Tok}
    {leaf : Tok} {v : Val} (fn : Val → Val)
    (hWF : WF h) (hroot : heapGet h a = some o)
    (hvb : ∀ k ∈ branch, validKey k = true) (hvl : validKey leaf = true)
    (hres : loopC h (.ref a) branch = .ok v) (hn : nullish v = true) :
    applyUpdate h (.ref a) (branch ++ [leaf]) fn = .error .typeError := by
  rw [applyUpdate_eq]
  have hvleaf1 : ∀ k ∈ [leaf], validKey k = true := by
    intro k hk
    rw [List.mem_singleton] at hk
    rw [hk]
    exact hvl
  have hfull : getNested h (.ref a) (branch ++ [leaf]) = .ok .vundefined := by
    rw [getNested_eq_loopC (by
      intro k hk
      rcases List.mem_append.mp hk with hk1 | hk1
      · exact hvb k hk1
      · rw [List.mem_singleton] at hk1; rw [hk1]; exact hvl) (nullish_ref a)]
    rw [loopC_append branch [leaf] _ hvleaf1]
    simp only [hres]
    exact loopC_cons_nullish h hvl hn []
  rw [hfull]
  exact applyWrite_broken_spine (fn .vundefined) hWF hroot hvb hvl hres hn

/-! ## Round-trip of the path grammar (claim C3 machinery)

A path built from identifier property names joined by dots and bracketed
decimal indices is modelled as a list of segments; render produces the
path string and tok the expected token of each segment. -/

inductive Seg where
  | prop (name : List Char)
  | idx (digits : List Char)

def Seg.tok : Seg → List Char
  | .prop n => n
  | .idx d => d

/-- Well-formed segment: an identifier name or a non-empty digit string. -/
def Seg.wfb : Seg → Bool
  | .prop n => isIdentTok n
  | .idx d => isDigitsTok d

def renderTail : List Seg → List Char
  | [] => []
  | .prop n :: r => '.' :: (n ++ renderTail r)
  | .idx d :: r => '[' :: (d ++ ']' :: renderTail r)

/-- The path string denoted by a non-empty segment list: the first
property name is not preceded by a dot. -/
def render : List Seg → List Char
  | [] => []
  | .prop n :: r => n ++ renderTail r
  | .idx d :: r => '[' :: (d ++ ']' :: renderTail r)

/-- The shape the bracket rewrite produces: every segment preceded by a
dot. -/
def dotJoin : List Seg → List Char
  | [] => []
  | s :: r => '.' :: (Seg.tok s ++ dotJoin r)

theorem identTok_parts {n : List Char} (h : isIdentTok n = true) :
    ∃ c cs, n = c :: cs ∧ isIdentStartC c = true ∧ cs.all isIdentC = true := by
  cases n with
  | nil => simp [isIdentTok] at h
  | cons c cs =>
    simp only [isIdentTok, Bool.and_eq_true] at h
    exact ⟨c, cs, rfl, h.1, h.2⟩

theorem identTok_chars {n : List Char} (h : isIdentTok n = true) :
    ∀ c ∈ n, isIdentC c = true := by
  obtain ⟨c, cs, rfl, h1, h2⟩ := identTok_parts h
  intro x hx
  rcases List.mem_cons.mp hx with hx1 | hx1
  · rw [hx1]; exact identStart_isIdentC h1
  · exact (List.all_eq_true.mp h2) x hx1

theorem digitsTok_parts {d : List Char} (h : isDigitsTok d = true) :
    d ≠ [] ∧ ∀ c ∈ d, isDigitC c = true := by
  unfold isDigitsTok at h
  rw [Bool.and_eq_true] at h
  refine ⟨by cases d <;> simp_all, (List.all_eq_true.mp h.2)⟩

theorem wfb_tok_nodot {s : Seg} (h : s.wfb = true) : ∀ c ∈ s.tok, c ≠ '.' := by
  cases s with
  | prop n => exact fun c hc => identC_ne_dot (identTok_chars h c hc)
  | idx d => exact fun c hc => digitC_ne_dot ((digitsTok_parts h).2 c hc)

theorem wfb_tok_nolb {s : Seg} (h : s.wfb = true) : ∀ c ∈ s.tok, c ≠ '[' := by
  cases s with
  | prop n => exact fun c hc => identC_ne_lbracket (identTok_chars h c hc)
  | idx d => exact fun c hc => digitC_ne_lbracket ((digitsTok_parts h).2 c hc)

theorem wfb_tok_ne_nil {s : Seg} (h : s.wfb = true) : s.tok ≠ [] := by
  cases s with
  | prop n =>
    obtain ⟨c, cs, rfl, _, _⟩ := identTok_parts h
    simp [Seg.tok]
  | idx d => exact (digitsTok_parts h).1

/-! Scanning lemmas for the format checks -/

theorem hasDotDot_append_nodot : ∀ (xs ys : List Char),
    (∀ c ∈ xs, c ≠ '.') → hasDotDot (xs ++ ys) = hasDotDot ys := by
  intro xs
  induction xs with
  | nil => intro ys _; rfl
  | cons c xs2 ih =>
    intro ys hx
    have hc : (c == '.') = false := by
      have := hx c (by simp)
      simpa using this
    rw [List.cons_append]
    cases hshape : xs2 ++ ys with
    | nil =>
      obtain ⟨h1, h2⟩ := List.append_eq_nil.mp hshape
      subst h1
      subst h2
      rfl
    | cons d r =>
      show (((c == '.') && (d == '.')) || hasDotDot (d :: r)) = hasDotDot ys
      rw [hc, Bool.false_and, Bool.false_or, ← hshape]
      exact ih ys fun c2 hc2 => hx c2 (by simp [hc2])

theorem hasBadBracket_append_nolb : ∀ (xs ys : List Char),
    (∀ c ∈ xs, c ≠ '[') → hasBadBracket (xs ++ ys) = hasBadBracket ys := by
  intro xs
  induction xs with
  | nil => intro ys _; rfl
  | cons c xs2 ih =>
    intro ys hx
    have hc : (c == '[') = false := by
      have := hx c (by simp)
      simpa using this
    rw [List.cons_append]
    cases hshape : xs2 ++ ys with
    | nil =>
      obtain ⟨h1, h2⟩ := List.append_eq_nil.mp hshape
      subst h1
      subst h2
      rfl
    | cons d r =>
      show (((c == '[') && !(isDigitC d) && !(d == ']')) || hasBadBracket (d :: r)) =
        hasBadBracket ys
      rw [hc, Bool.false_and, Bool.false_and, Bool.false_or, ← hshape]
      exact ih ys fun c2 hc2 => hx c2 (by simp [hc2])

theorem cons_append_bracket (d : List Char) (tail : List Char) :
    '[' :: (d ++ ']' :: tail) = ('[' :: d ++ [']']) ++ tail := by
  simp

theorem hasDotDot_renderTail : ∀ (segs : List Seg),
    (∀ s ∈ segs, s.wfb = true) → hasDotDot (renderTail segs) = false := by
  intro segs
  induction segs with
  | nil => intro _; rfl
  | cons s r ih =>
    intro hwf
    have hs := hwf s (by simp)
    have hr : ∀ s2 ∈ r, s2.wfb = true := fun s2 hs2 => hwf s2 (by simp [hs2])
    cases s with
    | prop n =>
      obtain ⟨c, cs, rfl, h1, h2⟩ := identTok_parts hs
      show hasDotDot ('.' :: (c :: cs ++ renderTail r)) = false
      rw [List.cons_append]
      show ((('.' == '.') && (c == '.')) || hasDotDot (c :: (cs ++ renderTail r))) = false
      have hc : (c == '.') = false := by
        have := identC_ne_dot (identStart_isIdentC h1)
        simpa using this
      rw [hc, Bool.and_false, Bool.false_or, ← List.cons_append]
      rw [hasDotDot_append_nodot (c :: cs) _ (wfb_tok_nodot hs)]
      exact ih hr
    | idx d =>
      show hasDotDot ('[' :: (d ++ ']' :: renderTail r)) = false
      rw [cons_append_bracket]
      rw [hasDotDot_append_nodot _ _ ?hnd]
      case hnd =>
        intro c hc
        rcases List.mem_append.mp hc with hc1 | hc1
        · rcases List.mem_cons.mp hc1 with hc2 | hc2
          · rw [hc2]; decide
          · exact digitC_ne_dot ((digitsTok_parts hs).2 c hc2)
        · rw [List.mem_singleton] at hc1
          rw [hc1]; decide
      exact ih hr

theorem hasBadBracket_renderTail : ∀ (segs : List Seg),
    (∀ s ∈ segs, s.wfb = true) → hasBadBracket (renderTail segs) = false := by
  intro segs
  induction segs with
  | nil => intro _; rfl
  | cons s r ih =>
    intro hwf
    have hs := hwf s (by simp)
    have hr : ∀ s2 ∈ r, s2.wfb = true := fun s2 hs2 => hwf s2 (by simp [hs2])
    cases s with
    | prop n =>
      obtain ⟨c, cs, rfl, h1, h2⟩ := identTok_parts hs
      show hasBadBracket ('.' :: (c :: cs ++ renderTail r)) = false
      rw [List.cons_append]
      show ((('.' == '[') && !(isDigitC c) && !(c == ']')) ||
        hasBadBracket (c :: (cs ++ renderTail r))) = false
      rw [show (('.' : Char) == '[') = false from by decide]
      rw [Bool.false_and, Bool.false_and, Bool.false_or, ← List.cons_append]
      rw [hasBadBracket_append_nolb (c :: cs) _ (wfb_tok_nolb hs)]
      exact ih hr
    | idx d =>
      obtain ⟨hdne, hdall⟩ := digitsTok_parts hs
      obtain ⟨e, ds, rfl⟩ : ∃ e ds, d = e :: ds := by
        cases d
        · exact absurd rfl hdne
        · exact ⟨_, _, rfl⟩
      show hasBadBracket ('[' :: (e :: ds ++ ']' :: renderTail r)) = false
      rw [List.cons_append]
      show ((('[' == '[') && !(isDigitC e) && !(e == ']')) ||
        hasBadBracket (e :: (ds ++ ']' :: renderTail r))) = false
      rw [show isDigitC e = true from hdall e (by simp), Bool.not_true, Bool.and_false,
        Bool.false_and, Bool.false_or]
      have hre : e :: (ds ++ ']' :: renderTail r) = (e :: ds ++ [']']) ++ renderTail r := by
        simp
      rw [hre]
      rw [hasBadBracket_append_nolb _ _ ?hnd]
      case hnd =>
        intro c hc
        rcases List.mem_append.mp hc with hc1 | hc1
        · exact digitC_ne_lbracket (hdall c hc1)
        · rw [List.mem_singleton] at hc1
          rw [hc1]; decide
      exact ih hr

/-! Rewrite lemmas for the bracket replacement -/

theorem rb_nil : replaceBrackets [] = [] := rfl

theorem rb_cons_other {c : Char} (hc : c ≠ '[') (l : List Char) :
    replaceBrackets (c :: l) = c :: replaceBrackets l := by
  show rbFuel (c :: l).length (c :: l) = c :: rbFuel l.length l
  rw [List.length_cons]
  show (if c = '[' ∧ (spanDigits l).1 ≠ [] ∧ (spanDigits l).2.head? = some ']' then
      '.' :: (spanDigits l).1 ++ rbFuel l.length (spanDigits l).2.tail
    else c :: rbFuel l.length l) = c :: rbFuel l.length l
  rw [if_neg fun hcon => hc hcon.1]

theorem rb_skip : ∀ (xs ys : List Char), (∀ c ∈ xs, c ≠ '[') →
    replaceBrackets (xs ++ ys) = xs ++ replaceBrackets ys := by
  intro xs
  induction xs with
  | nil => intro ys _; rfl
  | cons c xs2 ih =>
    intro ys hx
    rw [List.cons_append, rb_cons_other (hx c (by simp))]
    rw [ih ys fun c2 hc2 => hx c2 (by simp [hc2])]
    rfl

theorem spanDigits_digits_append : ∀ (ds : List Char) (rest : List Char),
    (∀ c ∈ ds, isDigitC c = true) →
    spanDigits (ds ++ ']' :: rest) = (ds, ']' :: rest) := by
  intro ds
  induction ds with
  | nil =>
    intro rest _
    show spanDigits (']' :: rest) = ([], ']' :: rest)
    unfold spanDigits
    rw [if_neg (by decide)]
  | cons e ds2 ih =>
    intro rest hd
    rw [List.cons_append]
    unfold spanDigits
    rw [if_pos (hd e (by simp))]
    rw [ih rest fun c hc => hd c (by simp [hc])]

theorem rb_bracket {ds : List Char} (hne : ds ≠ [])
    (hd : ∀ c ∈ ds, isDigitC c = true) (rest : List Char) :
    replaceBrackets ('[' :: (ds ++ ']' :: rest)) =
      '.' :: (ds ++ replaceBrackets rest) := by
  show rbFuel ('[' :: (ds ++ ']' :: rest)).length ('[' :: (ds ++ ']' :: rest)) = _
  rw [List.length_cons]
  show (if '[' = '[' ∧ (spanDigits (ds ++ ']' :: rest)).1 ≠ [] ∧
      (spanDigits (ds ++ ']' :: rest)).2.head? = some ']' then
      '.' :: (spanDigits (ds ++ ']' :: rest)).1 ++
        rbFuel (ds ++ ']' :: rest).length (spanDigits (ds ++ ']' :: rest)).2.tail
    else '[' :: rbFuel (ds ++ ']' :: rest).length (ds ++ ']' :: rest)) = _
  rw [spanDigits_digits_append ds rest hd]
  rw [if_pos ⟨rfl, hne, rfl⟩]
  show '.' :: (ds ++ rbFuel (ds ++ ']' :: rest).length rest) = _
  rw [rbFuel_irrel (ds ++ ']' :: rest).length rest.length rest (by simp; omega) (le_refl _)]
  rfl

theorem rb_renderTail : ∀ (segs : List Seg), (∀ s ∈ segs, s.wfb = true) →
    replaceBrackets (renderTail segs) = dotJoin segs := by
  intro segs
  induction segs with
  | nil => intro _; rfl
  | cons s r ih =>
    intro hwf
    have hs := hwf s (by simp)
    have hr : ∀ s2 ∈ r, s2.wfb = true := fun s2 hs2 => hwf s2 (by simp [hs2])
    cases s with
    | prop n =>
      show replaceBrackets ('.' :: (n ++ renderTail r)) = '.' :: (n ++ dotJoin r)
      rw [rb_cons_other (by decide), rb_skip n _ (wfb_tok_nolb hs), ih hr]
    | idx d =>
      show replaceBrackets ('[' :: (d ++ ']' :: renderTail r)) = '.' :: (d ++ dotJoin r)
      rw [rb_bracket (show d ≠ [] from wfb_tok_ne_nil hs)
        (fun c hc => (digitsTok_parts hs).2 c hc)]
      rw [ih hr]

theorem rb_render_prop {n : List Char} {r : List Seg}
    (hwf : ∀ s ∈ (Seg.prop n :: r), s.wfb = true) :
    replaceBrackets (render (.prop n :: r)) = n ++ dotJoin r := by
  have hs := hwf (Seg.prop n) (by simp)
  have hr : ∀ s2 ∈ r, s2.wfb = true := fun s2 hs2 => hwf s2 (by simp [hs2])
  show replaceBrackets (n ++ renderTail r) = n ++ dotJoin r
  rw [rb_skip n _ (wfb_tok_nolb hs), rb_renderTail r hr]

theorem rb_render_idx {d : List Char} {r : List Seg}
    (hwf : ∀ s ∈ (Seg.idx d :: r), s.wfb = true) :
    replaceBrackets (render (.idx d :: r)) = '.' :: (d ++ dotJoin r) := by
  have hs := hwf (Seg.idx d) (by simp)
  have hr : ∀ s2 ∈ r, s2.wfb = true := fun s2 hs2 => hwf s2 (by simp [hs2])
  show replaceBrackets ('[' :: (d ++ ']' :: renderTail r)) = '.' :: (d ++ dotJoin r)
  rw [rb_bracket (show d ≠ [] from wfb_tok_ne_nil hs)
    (fun c hc => (digitsTok_parts hs).2 c hc)]
  rw [rb_renderTail r hr]

/-! Splitting lemmas -/

theorem splitDots_cons_dot (r : List Char) : splitDots ('.' :: r) = [] :: splitDots r := by
  simp [splitDots]

theorem splitDots_nodot_append : ∀ (xs ys t : List Char) (ts : List (List Char)),
    (∀ c ∈ xs, c ≠ '.') → splitDots ys = t :: ts →
    splitDots (xs ++ ys) = (xs ++ t) :: ts := by
  intro xs
  induction xs with
  | nil => intro ys t ts _ hy; simpa using hy
  | cons c xs2 ih =>
    intro ys t ts hx hy
    rw [List.cons_append]
    show splitDots (c :: (xs2 ++ ys)) = ((c :: xs2) ++ t) :: ts
    unfold splitDots
    rw [if_neg (hx c (by simp))]
    rw [ih ys t ts (fun c2 hc2 => hx c2 (by simp [hc2])) hy]
    rfl

theorem splitDots_tok_dotJoin : ∀ (r : List Seg) (t : List Char),
    (∀ c ∈ t, c ≠ '.') → (∀ s ∈ r, s.wfb = true) →
    splitDots (t ++ dotJoin r) = t :: r.map Seg.tok := by
  intro r
  induction r with
  | nil =>
    intro t hnd _
    show splitDots (t ++ []) = [t]
    simpa using splitDots_nodot_append t [] [] [] hnd rfl
  | cons s r2 ih =>
    intro t hnd hwf
    have hs := hwf s (by simp)
    have hr : ∀ s2 ∈ r2, s2.wfb = true := fun s2 hs2 => hwf s2 (by simp [hs2])
    show splitDots (t ++ '.' :: (Seg.tok s ++ dotJoin r2)) = t :: (Seg.tok s :: r2.map Seg.tok)
    rw [splitDots_nodot_append t _ [] (splitDots (Seg.tok s ++ dotJoin r2)) hnd
      (splitDots_cons_dot _)]
    rw [ih (Seg.tok s) (wfb_tok_nodot hs) hr, List.append_nil]

theorem any_isEmpty_false {l : List (List Char)} (h : ∀ t ∈ l, t ≠ []) :
    l.any (fun t => t.isEmpty) = false := by
  rw [List.any_eq_false]
  intro t ht
  have := h t ht
  cases t
  · exact absurd rfl this
  · simp

theorem stripLeadingDot_cons (c : Char) (r : List Char) :
    stripLeadingDot (c :: r) = if c = '.' then r else c :: r := rfl

/-! The round-trip theorem core -/

theorem getTokens_render (segs : List Seg) (hne : segs ≠ [])
    (hwf : ∀ s ∈ segs, s.wfb = true) :
    getTokens (render segs) = .ok (segs.map Seg.tok) := by
  obtain ⟨s1, r, rfl⟩ : ∃ s1 r, segs = s1 :: r := by
    cases segs
    · exact absurd rfl hne
    · exact ⟨_, _, rfl⟩
  have hs1 := hwf s1 (by simp)
  have hr : ∀ s2 ∈ r, s2.wfb = true := fun s2 hs2 => hwf s2 (by simp [hs2])
  -- the head character of the rendered path is not a dot
  have hhead : ∀ l, render (s1 :: r) = l → ∀ rest, l = '.' :: rest → False := by
    intro l hl rest hrest
    subst hl
    cases s1 with
    | prop n =>
      obtain ⟨c, cs, rfl, h1, _⟩ := identTok_parts hs1
      have : c = '.' := by
        have := congrArg List.head? hrest
        simpa [render] using this
      exact identC_ne_dot (identStart_isIdentC h1) this
    | idx d =>
      have : '[' = '.' := by
        have := congrArg List.head? hrest
        simpa [render] using this
      exact absurd this (by decide)
  have hrne : render (s1 :: r) ≠ [] := by
    cases s1 with
    | prop n =>
      obtain ⟨c, cs, rfl, _, _⟩ := identTok_parts hs1
      simp [render]
    | idx d => simp [render]
  have hnd1 : render (s1 :: r) ≠ ['.'] := fun hq => hhead _ rfl [] hq
  have hnd2 : render (s1 :: r) ≠ ['.', '.'] := fun hq => hhead _ rfl ['.'] hq
  have hdd : hasDotDot (render (s1 :: r)) = false := by
    cases s1 with
    | prop n =>
      show hasDotDot (n ++ renderTail r) = false
      rw [hasDotDot_append_nodot n _ (wfb_tok_nodot hs1)]
      exact hasDotDot_renderTail r hr
    | idx d =>
      exact hasDotDot_renderTail (Seg.idx d :: r) hwf
  have hbb : hasBadBracket (render (s1 :: r)) = false := by
    cases s1 with
    | prop n =>
      show hasBadBracket (n ++ renderTail r) = false
      rw [hasBadBracket_append_nolb n _ (wfb_tok_nolb hs1)]
      exact hasBadBracket_renderTail r hr
    | idx d =>
      exact hasBadBracket_renderTail (Seg.idx d :: r) hwf
  have hsplit : splitDots (stripLeadingDot (replaceBrackets (render (s1 :: r)))) =
      (s1 :: r).map Seg.tok := by
    cases s1 with
    | prop n =>
      rw [rb_render_prop hwf]
      obtain ⟨c, cs, hn, h1, _⟩ := identTok_parts hs1
      have hstrip : stripLeadingDot (n ++ dotJoin r) = n ++ dotJoin r := by
        rw [hn, List.cons_append, stripLeadingDot_cons]
        rw [if_neg (identC_ne_dot (identStart_isIdentC h1))]
      rw [hstrip]
      exact splitDots_tok_dotJoin r n (wfb_tok_nodot hs1) hr
    | idx d =>
      rw [rb_render_idx hwf]
      show splitDots (d ++ dotJoin r) = _
      exact splitDots_tok_dotJoin r d (wfb_tok_nodot hs1) hr
  have hnoempty : ((s1 :: r).map Seg.tok).any (fun t => t.isEmpty) = false := by
    refine any_isEmpty_false ?_
    intro t ht
    rw [List.mem_map] at ht
    obtain ⟨s2, hs2, rfl⟩ := ht
    exact wfb_tok_ne_nil (hwf s2 hs2)
  unfold getTokens
  rw [if_neg hrne, if_neg (by rintro (hq | hq) <;> [exact hnd1 hq; exact hnd2 hq])]
  rw [if_neg (by rw [hdd]; exact Bool.false_ne_true),
    if_neg (by rw [hbb]; exact Bool.false_ne_true)]
  rw [hsplit]
  rw [if_neg (by rw [hnoempty]; exact Bool.false_ne_true)]

/-! ## Concrete values for the claim instances -/

/-- Read-after-write through the same token list: run the set closure,
then read the new root through the new heap. -/
def readAfterWrite (h : Heap) (v : Val) (ts : List Tok) (x : Val) : Except Err Val :=
  match applyWrite h v ts x with
  | .error e => .error e
  | .ok (h2, newRoot) => getNested h2 newRoot ts

/-- ASCII upper-casing, for the toUpperCase scenario of the spec. -/
def upperC (c : Char) : Char :=
  if 97 ≤ c.toNat && c.toNat ≤ 122 then Char.ofNat (c.toNat - 32) else c

def upperVal : Val → Val
  | .vstr s => .vstr (s.map upperC)
  | v => v

/-- Heap for the scenario of section 8 of the spec: the inner name object
lives at address 0, the root at address 1. -/
def hScenario : Heap :=
  [(0, .obj [(("first").data, .vstr ("john").data), (("last").data, .vstr ("smith").data)]),
   (1, .obj [(("name").data, .ref 0), (("age").data, .vnum 10)])]

def rootFields : List (Tok × Val) := [(("name").data, .ref 0), (("age").data, .vnum 10)]

/-- The heap after setting name.first to jane through the lens: address 0
is mutated in place, address 2 holds the shallow clone of the root. -/
def hScenarioAfter : Heap :=
  [(0, .obj [(("first").data, .vstr ("jane").data), (("last").data, .vstr ("smith").data)]),
   (1, .obj rootFields),
   (2, .obj rootFields)]

/-- Root object with an empty object at field a, for the digit-leaf
counterexample to the read-after-write property. -/
def hDigitLeaf : Heap := [(0, .obj []), (1, .obj [(("a").data, .ref 0)])]

/-- Root object whose field a is null, for the broken-spine claim. -/
def hNullSpine : Heap := [(0, .obj [(("a").data, .vnull)])]

/-- The quotes array of the update scenario. -/
def hQuotes : Heap :=
  [(0, .arr [.vstr ("eat").data, .vstr ("sleep").data, .vstr ("code").data,
    .vstr ("repeat").data])]

/-- Object owning a digit-named property, and a two-element array. -/
def hDigitObj : Heap := [(0, .obj [(("3").data, .vstr ("w").data)])]

def hDigitArr : Heap := [(0, .arr [.vstr ("x").data, .vstr ("y").data])]

theorem leafCompat_validKey {h : Heap} {b : Nat} {leaf : Tok}
    (hleaf : leafCompat h b leaf) : validKey leaf = true := by
  rcases hleaf with ⟨fs, _, hid⟩ | ⟨es, _, hci, _⟩
  · exact validKey_of_ident hid
  · exact validKey_of_canonIdx hci

/-- Single-token analogue of the write specification: the leaf is
assigned directly on the fresh clone, so the original is untouched. -/
theorem applyWrite_core_nil {h : Heap} {a : Nat} {o : Obj} {leaf : Tok} (x : Val)
    (hroot : heapGet h a = some o) (hleaf : leafCompat h a leaf) :
    ∃ h2, applyWrite h (.ref a) [leaf] x = .ok (h2, .ref (maxAddr h + 1))
      ∧ loopC h2 (.ref (maxAddr h + 1)) [leaf] = .ok x := by
  have hvl : validKey leaf = true := leafCompat_validKey hleaf
  rcases hleaf with ⟨fs, hb, hid⟩ | ⟨es, hb, hci, hlt31⟩
  · have ho : o = .obj fs := by
      rw [hroot] at hb
      exact Option.some_inj.mp hb
    subst ho
    refine ⟨heapSet (heapSet h (maxAddr h + 1) (.obj fs)) (maxAddr h + 1)
      (.obj (setField fs leaf x)), ?_, ?_⟩
    · rw [applyWrite_ref x hroot (show ([leaf] : List Tok).getLast? = some leaf from rfl)]
      have hdl : getNested (heapSet h (maxAddr h + 1) (.obj fs)) (.ref (maxAddr h + 1))
          ([leaf] : List Tok).dropLast = .ok (.ref (maxAddr h + 1)) := rfl
      simp only [hdl]
      rw [setProp_obj leaf x (heapGet_heapSet_self h (maxAddr h + 1) (.obj fs))]
    · rw [loopC_cons_step _ hvl (nullish_ref _)]
      have hst : stepC (heapSet (heapSet h (maxAddr h + 1) (.obj fs)) (maxAddr h + 1)
          (.obj (setField fs leaf x))) (.ref (maxAddr h + 1)) leaf = x := by
        unfold stepC
        rw [if_neg (by simp [canonMem_of_ident hid]), stepPlain_ref, heapGet_heapSet_self]
        exact lookupField_setField fs leaf x
      rw [hst]
      rfl
  · have ho : o = .arr es := by
      rw [hroot] at hb
      exact Option.some_inj.mp hb
    subst ho
    refine ⟨heapSet (heapSet h (maxAddr h + 1) (.arr es)) (maxAddr h + 1)
      (.arr (listSet es (digitsToNat leaf) x)), ?_, ?_⟩
    · rw [applyWrite_ref x hroot (show ([leaf] : List Tok).getLast? = some leaf from rfl)]
      have hdl : getNested (heapSet h (maxAddr h + 1) (.arr es)) (.ref (maxAddr h + 1))
          ([leaf] : List Tok).dropLast = .ok (.ref (maxAddr h + 1)) := rfl
      simp only [hdl]
      rw [setProp_arr leaf x (heapGet_heapSet_self h (maxAddr h + 1) (.arr es)) hci]
    · rw [loopC_cons_step _ hvl (nullish_ref _)]
      have hst : stepC (heapSet (heapSet h (maxAddr h + 1) (.arr es)) (maxAddr h + 1)
          (.arr (listSet es (digitsToNat leaf) x))) (.ref (maxAddr h + 1)) leaf = x := by
        unfold stepC
        rw [if_pos (canonMem_of_canonIdx hci hlt31), stepArr_ref, heapGet_heapSet_self]
        exact arrElem_listSet es (digitsToNat leaf) x
      rw [hst]
      rfl

/-! ## Claim C1 -/

/-- Claim C1, counterexample.  For the scenario root (name object at
address 0, root object at address 1) and the path name.first, setting
jane produces a new root at address 2 whose name field is still the
reference to address 0, the same reference as in the original root — not
a new one — and the original root now reads jane at name.first, so the
original object graph has been modified by the write.  This refutes the
claim that every container along the spine is cloned and the original
graph is left untouched. -/
theorem C1_spine_clone_counterexample :
    applyWrite hScenario (.ref 1) [("name").data, ("first").data] (.vstr ("jane").data) =
      .ok (hScenarioAfter, .ref 2)
    ∧ heapGet hScenarioAfter 2 = some (.obj [(("name").data, .ref 0), (("age").data, .vnum 10)])
    ∧ heapGet hScenarioAfter 1 = some (.obj [(("name").data, .ref 0), (("age").data, .vnum 10)])
    ∧ getNested hScenarioAfter (.ref 1) [("name").data, ("first").data] =
        .ok (.vstr ("jane").data)
    ∧ Val.vstr ("jane").data ≠ Val.vstr ("john").data := by
  refine ⟨by rfl, by rfl, by rfl, by rfl, by decide⟩

/-- Claim C1, amended.  A set through the lens clones only the root
container: the new root is a fresh address holding exactly the fields of
the original root (so the containers along the spine are shared, not
fresh references), the write mutates the shared container the branch
resolves to, and in consequence the original root value reads the newly
written leaf through the same path — the original object graph is NOT
left unmodified. -/
theorem C1_only_root_cloned {h : Heap} {a b : Nat} {o : Obj} {branch : List Tok}
    {leaf : Tok} (x : Val)
    (hWF : WF h) (hroot : heapGet h a = some o) (hbr : branch ≠ [])
    (hvb : ∀ k ∈ branch, validKey k = true)
    (hres : getNested h (.ref a) branch = .ok (.ref b))
    (hleaf : leafCompat h b leaf) :
    ∃ h2, applyWrite h (.ref a) (branch ++ [leaf]) x = .ok (h2, .ref (maxAddr h + 1))
      ∧ maxAddr h + 1 ≠ a
      ∧ heapGet h2 (maxAddr h + 1) = some o
      ∧ heapGet h2 a = some o
      ∧ getNested h2 (.ref a) (branch ++ [leaf]) = .ok x := by
  have hvl : validKey leaf = true := leafCompat_validKey hleaf
  have hvall : ∀ k ∈ branch ++ [leaf], validKey k = true := by
    intro k hk
    rcases List.mem_append.mp hk with hk1 | hk1
    · exact hvb k hk1
    · rw [List.mem_singleton] at hk1
      rw [hk1]
      exact hvl
  have hresC : loopC h (.ref a) branch = .ok (.ref b) := by
    rw [← getNested_eq_loopC hvb (nullish_ref a)]
    exact hres
  obtain ⟨h2, hw, hna, hga, _, hold⟩ := applyWrite_core x hWF hroot hbr hvb hresC hleaf
  have hane : maxAddr h + 1 ≠ a := by
    have := heapGet_le_maxAddr hroot
    omega
  refine ⟨h2, hw, hane, hna, hga, ?_⟩
  rw [getNested_eq_loopC hvall (nullish_ref a)]
  exact hold

/-- Claim C1, witness at the scenario instance. -/
theorem C1_only_root_cloned_witness :
    ∃ h2, applyWrite hScenario (.ref 1) ([("name").data] ++ [("first").data])
        (.vstr ("jane").data) = .ok (h2, .ref (maxAddr hScenario + 1))
      ∧ maxAddr hScenario + 1 ≠ 1
      ∧ heapGet h2 (maxAddr hScenario + 1) = some (.obj rootFields)
      ∧ heapGet h2 1 = some (.obj rootFields)
      ∧ getNested h2 (.ref 1) ([("name").data] ++ [("first").data]) =
          .ok (.vstr ("jane").data) :=
  C1_only_root_cloned (.vstr ("jane").data) (WFb_WF (by decide)) rfl
    (by decide) (by decide) rfl
    (Or.inl ⟨[(("first").data, .vstr ("john").data), (("last").data, .vstr ("smith").data)],
      rfl, by decide⟩)

/-! ## Claim C2 -/

/-- Claim C2, counterexample.  For the root at address 1 owning an empty
object at field a, the path a[3] tokenizes to the tokens a and 3, the
single branch token a resolves to the non-nullish container at address 0,
and the root is non-nullish; yet the read back through the same path
after writing jane yields undefined, not jane: the write put the value
into the object property named 3, while the read resolves a pure-digit
token only against arrays.  This refutes the claim for the parenthesised
case of a pure-digit leaf token over a plain object. -/
theorem C2_digit_leaf_object_counterexample :
    getTokens ("a[3]").data = .ok [("a").data, ("3").data]
    ∧ getNested hDigitLeaf (.ref 1) [("a").data] = .ok (.ref 0)
    ∧ heapGet hDigitLeaf 0 = some (.obj [])
    ∧ readAfterWrite hDigitLeaf (.ref 1) [("a").data, ("3").data] (.vstr ("jane").data) =
        .ok .vundefined
    ∧ Val.vundefined ≠ Val.vstr ("jane").data := by
  refine ⟨by rfl, by rfl, by rfl, by rfl, by decide⟩

/-- Claim C2, amended.  Read-after-write holds for a non-nullish root
container whose branch tokens resolve to a container, provided the leaf
slot resolution agrees between write and read: the leaf token is an
identifier and its parent container a plain object, or the leaf token is
a canonical decimal index below the Int32 bound and its parent container
an array.  When the leaf is a pure-digit token and the parent a plain
object, the read returns undefined instead (see the counterexample). -/
theorem C2_read_after_write_amended {h : Heap} {a b : Nat} {o : Obj}
    {branch : List Tok} {leaf : Tok} (x : Val)
    (hWF : WF h) (hroot : heapGet h a = some o)
    (hvb : ∀ k ∈ branch, validKey k = true)
    (hres : getNested h (.ref a) branch = .ok (.ref b))
    (hleaf : leafCompat h b leaf) :
    readAfterWrite h (.ref a) (branch ++ [leaf]) x = .ok x := by
  have hvl : validKey leaf = true := leafCompat_validKey hleaf
  have hvall : ∀ k ∈ branch ++ [leaf], validKey k = true := by
    intro k hk
    rcases List.mem_append.mp hk with hk1 | hk1
    · exact hvb k hk1
    · rw [List.mem_singleton] at hk1
      rw [hk1]
      exact hvl
  by_cases hbr : branch = []
  · subst hbr
    have hba : b = a := by
      have h0 : getNested h (.ref a) ([] : List Tok) = .ok (.ref a) := rfl
      have h1 := h0.symm.trans hres
      simpa using h1.symm
    subst hba
    obtain ⟨h2, hw, hrd⟩ := applyWrite_core_nil x hroot hleaf
    unfold readAfterWrite
    rw [show ([] : List Tok) ++ [leaf] = [leaf] from rfl, hw]
    show getNested h2 (.ref (maxAddr h + 1)) [leaf] = .ok x
    rw [getNested_eq_loopC (by
      intro k hk
      rw [List.mem_singleton] at hk
      rw [hk]
      exact hvl) (nullish_ref _)]
    exact hrd
  · have hresC : loopC h (.ref a) branch = .ok (.ref b) := by
      rw [← getNested_eq_loopC hvb (nullish_ref a)]
      exact hres
    obtain ⟨h2, hw, _, _, hnew, _⟩ := applyWrite_core x hWF hroot hbr hvb hresC hleaf
    unfold readAfterWrite
    rw [hw]
    show getNested h2 (.ref (maxAddr h + 1)) (branch ++ [leaf]) = .ok x
    rw [getNested_eq_loopC hvall (nullish_ref _)]
    exact hnew

/-- Claim C2, witness at the scenario instance. -/
theorem C2_read_after_write_witness :
    readAfterWrite hScenario (.ref 1) ([("name").data] ++ [("first").data])
      (.vstr ("jane").data) = .ok (.vstr ("jane").data) :=
  C2_read_after_write_amended (.vstr ("jane").data) (WFb_WF (by decide)) rfl
    (by decide) rfl
    (Or.inl ⟨[(("first").data, .vstr ("john").data), (("last").data, .vstr ("smith").data)],
      rfl, by decide⟩)

/-! ## Claim C3 -/

/-- Claim C3.  Tokenization round-trips the path grammar: for every
non-empty path built from identifier property names joined by dots and
bracketed decimal indices, getTokens returns exactly the sequence of
segments used to build it; in particular the three example paths of the
claim tokenize to their segment lists. -/
theorem C3_tokenize_round_trip :
    (∀ segs : List Seg, segs ≠ [] → (∀ s ∈ segs, Seg.wfb s = true) →
      getTokens (render segs) = .ok (segs.map Seg.tok))
    ∧ getTokens ("a.b.c").data = .ok [("a").data, ("b").data, ("c").data]
    ∧ getTokens ("[3][4][6]").data = .ok [("3").data, ("4").data, ("6").data]
    ∧ getTokens ("a[3].b.c[4][5]").data =
        .ok [("a").data, ("3").data, ("b").data, ("c").data, ("4").data, ("5").data] :=
  ⟨getTokens_render, by rfl, by rfl, by rfl⟩

/-- Claim C3, witness applying the general round-trip to a concrete
segment list. -/
theorem C3_tokenize_round_trip_witness :
    getTokens ("x[0].y").data = .ok [("x").data, ("0").data, ("y").data] :=
  C3_tokenize_round_trip.1
    [Seg.prop ("x").data, Seg.idx ("0").data, Seg.prop ("y").data]
    (by simp) (by decide)

theorem keyedTokens_ok {path : List Char} {toks : List Tok}
    (hok : getTokens path = .ok toks) :
    keyedTokens path =
      match toks.find? (fun t => !validateToken t) with
      | some t => .error (.forbiddenProperty t)
      | none => .ok toks := by
  unfold keyedTokens
  rw [hok]

/-! ## Claim C4 -/

/-- Claim C4.  Creating a lens whose path contains a forbidden token
fails at lens-creation time: keyedTokens — the creation-time computation
of keyed, which by construction takes no root value, so no read,
traversal or clone of any container value and no mutation of any shared
prototype is possible — rejects the paths proto, a.proto (showing the
check applies to every token position, not only the first), constructor
and prototype; and uniformly, whenever any token of a tokenized path
fails validateToken, creation fails with the forbidden-property error. -/
theorem C4_forbidden_key_creation :
    keyedTokens ("__proto__").data = .error (.forbiddenProperty ("__proto__").data)
    ∧ keyedTokens ("a.__proto__").data = .error (.forbiddenProperty ("__proto__").data)
    ∧ keyedTokens ("constructor").data = .error (.forbiddenProperty ("constructor").data)
    ∧ keyedTokens ("prototype").data = .error (.forbiddenProperty ("prototype").data)
    ∧ (∀ path toks, getTokens path = .ok toks →
        (∃ t ∈ toks, validateToken t = false) →
        ∃ u, keyedTokens path = .error (.forbiddenProperty u) ∧ validateToken u = false) := by
  refine ⟨by rfl, by rfl, by rfl, by rfl, ?_⟩
  intro path toks hok hex
  obtain ⟨t, ht, hvt⟩ := hex
  rw [keyedTokens_ok hok]
  cases hf : toks.find? (fun t => !validateToken t) with
  | none =>
    exfalso
    have := List.find?_eq_none.mp hf t ht
    simp [hvt] at this
  | some u =>
    refine ⟨u, rfl, ?_⟩
    have := List.find?_some hf
    simpa using this

/-- Claim C4, witness for the uniformity part. -/
theorem C4_forbidden_key_creation_witness :
    ∃ u, keyedTokens ("x.__proto__").data = .error (.forbiddenProperty u)
      ∧ validateToken u = false :=
  C4_forbidden_key_creation.2.2.2.2 ("x.__proto__").data
    [("x").data, ("__proto__").data] (by rfl)
    ⟨("__proto__").data, by decide, by decide⟩

/-! ## Claim C5 -/

/-- Claim C5.  The bracket-content check of getTokens only inspects the
single character following an opening bracket, so the malformed paths
a[1x] and a[] tokenize without error (keeping the bracket characters
inside the produced token) although the tokenizer documentation and the
claim say they must fail with InvalidPathFormatError; bracket contents
whose first character is non-numeric, like [abc], do fail, as do the
empty path and consecutive dots.  This evaluates the code at the claimed
failing inputs. -/
theorem C5_bracket_check_eval :
    getTokens ("a[1x]").data = .ok [("a[1x]").data]
    ∧ getTokens ("a[]").data = .ok [("a[]").data]
    ∧ getTokens ("[abc]").data = .error .invalidPathFormat
    ∧ getTokens ("").data = .error .emptyPath
    ∧ getTokens ("a..b").data = .error .invalidPathFormat :=
  ⟨by rfl, by rfl, by rfl, by rfl, by rfl⟩

/-! ## Claim C6 -/

/-- Claim C6.  Nullish roots short-circuit both directions, for every
token sequence including invalid ones: getNested on undefined and null
returns undefined without any token validation, and the set and update
closures return the same nullish parent unchanged without throwing. -/
theorem C6_nullish_short_circuit :
    (∀ (h : Heap) (ts : List Tok), getNested h .vundefined ts = .ok .vundefined)
    ∧ (∀ (h : Heap) (ts : List Tok), getNested h .vnull ts = .ok .vundefined)
    ∧ (∀ (h : Heap) (ts : List Tok) (x : Val), applyWrite h .vundefined ts x = .ok (h, .vundefined))
    ∧ (∀ (h : Heap) (ts : List Tok) (x : Val), applyWrite h .vnull ts x = .ok (h, .vnull))
    ∧ (∀ (h : Heap) (ts : List Tok) (fn : Val → Val),
        applyUpdate h .vundefined ts fn = .ok (h, .vundefined))
    ∧ (∀ (h : Heap) (ts : List Tok) (fn : Val → Val),
        applyUpdate h .vnull ts fn = .ok (h, .vnull)) :=
  ⟨fun _ _ => rfl, fun _ _ => rfl, fun _ _ _ => rfl, fun _ _ _ => rfl,
   fun _ _ _ => rfl, fun _ _ _ => rfl⟩

/-! ## Claim C7 -/

/-- Claim C7.  The update closure observes the pre-write value: for every
heap, parent, token list and transformation function, applyUpdate equals
reading the current derived value through the original parent with the
full token sequence and then writing the transformed value with the set
closure — so the function argument is computed from the original root,
before any clone exists.  For the scenario root of four quote strings and
path [2], reading yields code and updating with upper-casing yields the
array with CODE at index 2 in the fresh clone at address 1. -/
theorem C7_update_pre_write :
    (∀ (h : Heap) (p : Val) (ts : List Tok) (fn : Val → Val),
      applyUpdate h p ts fn =
        match getNested h p ts with
        | .error e => .error e
        | .ok cur => applyWrite h p ts (fn cur))
    ∧ getTokens ("[2]").data = .ok [("2").data]
    ∧ getNested hQuotes (.ref 0) [("2").data] = .ok (.vstr ("code").data)
    ∧ applyUpdate hQuotes (.ref 0) [("2").data] upperVal =
        .ok ([(0, .arr [.vstr ("eat").data, .vstr ("sleep").data, .vstr ("code").data,
            .vstr ("repeat").data]),
          (1, .arr [.vstr ("eat").data, .vstr ("sleep").data, .vstr ("CODE").data,
            .vstr ("repeat").data])], .ref 1) :=
  ⟨applyUpdate_eq, by rfl, by rfl, by rfl⟩

/-! ## Claim C8 -/

/-- Claim C8.  Writes against a non-nullish root with a broken spine are
not no-ops: when the branch tokens of a path resolve to a nullish value
through a non-nullish root container, both the set and the update closure
throw the strict-mode TypeError of assigning a property on a nullish
target, rather than returning the root unchanged or materializing
intermediate containers. -/
theorem C8_broken_spine_type_error {h : Heap} {a : Nat} {o : Obj}
    {branch : List Tok} {leaf : Tok} {v : Val} (x : Val) (fn : Val → Val)
    (hWF : WF h) (hroot : heapGet h a = some o)
    (hvb : ∀ k ∈ branch, validKey k = true) (hvl : validKey leaf = true)
    (hres : getNested h (.ref a) branch = .ok v) (hn : nullish v = true) :
    applyWrite h (.ref a) (branch ++ [leaf]) x = .error .typeError
    ∧ applyUpdate h (.ref a) (branch ++ [leaf]) fn = .error .typeError := by
  have hresC : loopC h (.ref a) branch = .ok v := by
    rw [← getNested_eq_loopC hvb (nullish_ref a)]
    exact hres
  exact ⟨applyWrite_broken_spine x hWF hroot hvb hvl hresC hn,
    applyUpdate_broken_spine fn hWF hroot hvb hvl hresC hn⟩

/-- Claim C8, witness: root owning a null field a, path a.b. -/
theorem C8_broken_spine_type_error_witness :
    applyWrite hNullSpine (.ref 0) ([("a").data] ++ [("b").data]) (.vnum 1) =
      .error .typeError
    ∧ applyUpdate hNullSpine (.ref 0) ([("a").data] ++ [("b").data]) upperVal =
      .error .typeError :=
  C8_broken_spine_type_error (.vnum 1) upperVal (WFb_WF (by decide)) rfl
    (by decide) (by decide) rfl rfl

/-! ## Claim C9 -/

/-- Claim C9, counterexample.  The token 4294967296 is the decimal string
form of a number (two to the 32), yet traversing it over a non-array
object owning that property returns the stored value, not undefined: when
the token value is stored into the Int32Array it wraps to 0, so the
membership test parseInt against the set fails and the lookup falls
through to the plain object branch. -/
theorem C9_int32_truncation_counterexample :
    ("4294967296").data.all isDigitC = true
    ∧ getNested [(0, .obj [(("4294967296").data, .vstr ("v").data)])] (.ref 0)
        [("4294967296").data] = .ok (.vstr ("v").data)
    ∧ Val.vstr ("v").data ≠ Val.vundefined := by
  refine ⟨by decide, by rfl, by decide⟩

/-- Claim C9, amended.  For a pure-digit token whose value is below the
Int32 bound, a single-token traversal resolves the token only against
arrays: over any plain object the result is undefined regardless of the
fields the object owns, while over an array the result is the element at
that index (undefined past the end).  For larger digit strings the
Int32Array wrap-around defeats the membership test and the object
property is returned instead, see the counterexample. -/
theorem C9_numeric_token_amended {h : Heap} {a : Nat} {k : Tok}
    (hne : k ≠ []) (hd : k.all isDigitC = true) (hlt : digitsToNat k < 2 ^ 31) :
    (∀ fs, heapGet h a = some (.obj fs) → getNested h (.ref a) [k] = .ok .vundefined)
    ∧ (∀ es, heapGet h a = some (.arr es) →
        getNested h (.ref a) [k] = .ok (es.getD (digitsToNat k) .vundefined)) := by
  have hvk : validKey k = true := by
    rw [validKey_eq]
    unfold isDigitsTok
    have he : k.isEmpty = false := by cases k <;> simp_all
    simp [he, hd]
  have hcm : canonMem k = true := by
    unfold canonMem
    have he : k.isEmpty = false := by cases k <;> simp_all
    simp [he, hd]
    omega
  have hconv : getNested h (.ref a) [k] = loopC h (.ref a) [k] :=
    getNested_eq_loopC (by
      intro k2 hk2
      rw [List.mem_singleton] at hk2
      rw [hk2]
      exact hvk) (nullish_ref a)
  constructor
  · intro fs hg
    rw [hconv, loopC_cons_step _ hvk (nullish_ref a)]
    have hst : stepC h (.ref a) k = .vundefined := by
      unfold stepC
      rw [if_pos hcm, stepArr_ref, hg]
    rw [hst]
    rfl
  · intro es hg
    rw [hconv, loopC_cons_step _ hvk (nullish_ref a)]
    have hst : stepC h (.ref a) k = arrElem es (digitsToNat k) := by
      unfold stepC
      rw [if_pos hcm, stepArr_ref, hg]
    rw [hst]
    rfl

/-- Claim C9, witness: token 3 over an object owning the property 3
reads undefined; token 1 over a two-element array reads the element. -/
theorem C9_numeric_token_amended_witness :
    getNested hDigitObj (.ref 0) [("3").data] = .ok .vundefined
    ∧ getNested hDigitArr (.ref 0) [("1").data] = .ok (.vstr ("y").data) :=
  ⟨(C9_numeric_token_amended (by decide) (by decide) (by decide)).1
      [(("3").data, .vstr ("w").data)] rfl,
   (C9_numeric_token_amended (by decide) (by decide) (by decide)).2
      [.vstr ("x").data, .vstr ("y").data] rfl⟩

/-! ## Claim C10 -/

/-- Claim C10.  The forbidden-token filter of keyed over-approximates the
disallowed names by substring and word matching: myPrototype is a
syntactically valid identifier different from each of the three
disallowed names, yet lens creation rejects it (case-insensitive
substring match on prototype); the ordinary identifiers or, and, not are
rejected by the word-boundary pattern; and a token containing the
substring $where is rejected too, so such ordinary property names cannot
be addressed through a lens. -/
theorem C10_forbidden_over_approximation :
    keyedIdentOk ("myPrototype").data = true
    ∧ ("myPrototype").data ≠ ("__proto__").data
    ∧ ("myPrototype").data ≠ ("constructor").data
    ∧ ("myPrototype").data ≠ ("prototype").data
    ∧ keyedTokens ("myPrototype").data = .error (.forbiddenProperty ("myPrototype").data)
    ∧ keyedTokens ("or").data = .error (.forbiddenProperty ("or").data)
    ∧ keyedTokens ("and").data = .error (.forbiddenProperty ("and").data)
    ∧ keyedTokens ("not").data = .error (.forbiddenProperty ("not").data)
    ∧ keyedTokens ("a.x$where").data = .error (.forbiddenProperty ("x$where").data) := by
  refine ⟨by decide, by decide, by decide, by decide, by rfl, by rfl, by rfl, by rfl, by rfl⟩

end SvelteKeyed
